import Mathlib

/-!
Verification of the roots-scoping layer of the github-mcp-server repository:
the root-URI parser (`ParseGitHubRootURI`, two source variants), root
resolution (`ParseGitHubRoots`), the injection middleware (`RootsMiddleware`),
the enforcement middleware (`RootsEnforcementMiddleware`), and the
owner/repo schema transform (`MakeOwnerRepoOptional`).

Go strings are modelled as Lean `String` (a list of characters); the ASCII
case fold of `strings.ToLower` / `strings.EqualFold` is modelled with
`Char.toLower`, which agrees with Go on the ASCII identifiers this layer
handles.
-/

namespace GH

/-- Model of Go `strings.ToLower` (ASCII fold). -/
def goToLower (s : String) : String := ⟨s.data.map Char.toLower⟩

/-- Model of Go `strings.EqualFold` (ASCII fold). -/
def goEqualFold (s t : String) : Bool := decide (goToLower s = goToLower t)

/-- `dropPre pre l` removes the leading occurrence of `pre` from `l`,
returning `none` when `pre` does not lead `l`. -/
def dropPre : List Char → List Char → Option (List Char)
  | [], l => some l
  | _ :: _, [] => none
  | p :: ps, c :: cs => if c = p then dropPre ps cs else none

/-- Model of Go `strings.TrimPrefix`. -/
def goTrimPre (s pre : String) : String :=
  match dropPre pre.data s.data with
  | some rest => ⟨rest⟩
  | none => s

/-- Model of Go `strings.TrimSuffix` (via reversal). -/
def goTrimSuf (s suf : String) : String :=
  match dropPre suf.data.reverse s.data.reverse with
  | some rest => ⟨rest.reverse⟩
  | none => s

/-- Split a character list at every occurrence of `sep`
(model of Go `strings.Split`; the result is never empty). -/
def splitChars (sep : Char) : List Char → List (List Char)
  | [] => [[]]
  | c :: cs =>
    match splitChars sep cs with
    | [] => [[c]]
    | l :: ls => if c = sep then [] :: l :: ls else (c :: l) :: ls

/-- Model of Go `strings.SplitN(s, sep, 3)`: at most three pieces, the third
piece keeps the remaining separators. -/
def splitN3 (s : String) (sep : Char) : List String :=
  match splitChars sep s.data with
  | [] => []
  | [a] => [⟨a⟩]
  | [a, b] => [⟨a⟩, ⟨b⟩]
  | a :: b :: rest => [⟨a⟩, ⟨b⟩, ⟨List.intercalate [sep] rest⟩]

/-- The three components of a parsed URL that `ParseGitHubRootURI` reads. -/
structure URL where
  scheme : String
  host : String
  path : String
deriving DecidableEq, Repr

/-- Locate the first `"://"` marker: returns the characters before it and
after it. -/
def breakScheme : List Char → Option (List Char × List Char)
  | [] => none
  | c :: cs =>
    if c = ':' ∧ cs.take 2 = ['/', '/'] then some ([], cs.drop 2)
    else
      match breakScheme cs with
      | some (a, b) => some (c :: a, b)
      | none => none

/-- Modelled from the spec: Go `net/url.Parse` (an external stdlib
collaborator), restricted to the `scheme://host/path` URIs this layer
handles (no userinfo, query, fragment or percent escapes).  A URI without
a `"://"` marker parses with an empty scheme (rejected downstream); a URI
starting with `"://"` is a parse error (missing protocol scheme); the
scheme is lowercased; the host extends to the first `'/'` and the path is
the remainder. -/
def urlParse (s : String) : Option URL :=
  match breakScheme s.data with
  | none => some ⟨"", "", s⟩
  | some (schemeChars, rest) =>
    if schemeChars = [] then none
    else some ⟨⟨schemeChars.map Char.toLower⟩,
               ⟨rest.takeWhile (fun c => decide (c ≠ '/'))⟩,
               ⟨rest.dropWhile (fun c => decide (c ≠ '/'))⟩⟩

/-- Embedding of `ParseGitHubRootURI` (src/unnamed/part_004, lines 366-411):
scheme must be https, http or git; host must case-insensitively equal the
expected host (default `github.com`); `/Owner/Repo[.git][/...]` yields the
lowercased pair, `/Owner` yields an organization-level root `(owner, "")`. -/
def ParseGitHubRootURI (uri host : String) : Except String (String × String) :=
  let host := if host = "" then "github.com" else host
  match urlParse uri with
  | none => .error "invalid URI"
  | some parsed =>
    if parsed.scheme = "https" ∨ parsed.scheme = "http" ∨ parsed.scheme = "git" then
      if goEqualFold parsed.host host then
        let path := goTrimSuf (goTrimPre parsed.path "/") "/"
        if path = "" then .error "URI has no path"
        else
          match splitN3 path '/' with
          | [] => .error "URI has no path"
          | seg0 :: segRest =>
            if seg0 = "" then .error "URI has no path"
            else
              let owner := goToLower seg0
              let repo :=
                match segRest with
                | seg1 :: _ =>
                  if seg1 ≠ "" then goToLower (goTrimSuf seg1 ".git") else ""
                | [] => ""
              .ok (owner, repo)
      else .error "URI host does not match expected host"
    else .error "unsupported URI scheme"

/-- Embedding of the `ParseGitHubRootURI` variant of src/unnamed/part_005
(lines 31-76): same scheme and host checks, but it requires at least two
path segments, performs no case normalization, and rejects a repo that is
empty after stripping `.git`. -/
def ParseGitHubRootURIAlt (uri host : String) : Except String (String × String) :=
  let host := if host = "" then "github.com" else host
  match urlParse uri with
  | none => .error "invalid URI"
  | some parsed =>
    if parsed.scheme = "https" ∨ parsed.scheme = "http" ∨ parsed.scheme = "git" then
      if goEqualFold parsed.host host then
        let path := goTrimSuf (goTrimPre parsed.path "/") "/"
        if path = "" then .error "URI has no path"
        else
          match splitN3 path '/' with
          | seg0 :: seg1 :: _ =>
            if seg0 = "" ∨ seg1 = "" then .error "URI does not contain owner and repo"
            else
              let repo := goTrimSuf seg1 ".git"
              if repo = "" then .error "URI has empty repo name after stripping .git"
              else .ok (seg0, repo)
          | _ => .error "URI does not contain owner and repo"
      else .error "URI host does not match expected host"
    else .error "unsupported URI scheme"

/-- A parsed GitHub root (src/unnamed/part_004, `Root`). -/
structure Root where
  Owner : String
  Repo : String
  URI : String
  Name : String
deriving DecidableEq, Repr

/-- A client-declared MCP root (uri, display name); `Option` at the use
site models the nil pointer entries the resolver skips. -/
structure MCPRoot where
  URI : String
  Name : String
deriving DecidableEq, Repr

/-- Embedding of `ParseGitHubRoots` (src/unnamed/part_004, lines 415-433):
skip nil entries and entries the parser rejects, keep input order. -/
def ParseGitHubRoots (roots : List (Option MCPRoot)) (host : String) : List Root :=
  roots.filterMap fun root? =>
    match root? with
    | none => none
    | some root =>
      match ParseGitHubRootURI root.URI host with
      | .error _ => none
      | .ok (owner, repo) => some ⟨owner, repo, root.URI, root.Name⟩

example : ParseGitHubRootURI "https://github.com/octocat/Hello-World" "github.com" =
    .ok ("octocat", "hello-world") := rfl
example : ParseGitHubRootURI "https://github.com/octocat/Hello-World.git" "" =
    .ok ("octocat", "hello-world") := rfl
example : ParseGitHubRootURI "https://github.com/octocat/Hello-World/tree/main" "github.com" =
    .ok ("octocat", "hello-world") := rfl
example : ParseGitHubRootURI "https://GitHub.com/OctoCat/My-Repo" "github.com" =
    .ok ("octocat", "my-repo") := rfl
example : ParseGitHubRootURI "https://github.com/myorg/" "github.com" =
    .ok ("myorg", "") := rfl
example : (ParseGitHubRootURI "ftp://github.com/octocat/Hello-World" "github.com").toOption =
    none := rfl
example : (ParseGitHubRootURI "https://gitlab.com/octocat/x" "github.com").toOption =
    none := rfl
example : (ParseGitHubRootURI "https://github.com" "github.com").toOption = none := by decide
example : (ParseGitHubRootURI "" "github.com").toOption = none := rfl
example : (ParseGitHubRootURI "://not-a-url" "github.com").toOption = none := by decide
example : ParseGitHubRootURIAlt "https://github.com/octocat/Hello-World" "github.com" =
    .ok ("octocat", "Hello-World") := rfl
example : (ParseGitHubRootURIAlt "https://github.com/octocat" "github.com").toOption =
    none := rfl

/-- A JSON value appearing in a tool call's argument map (the `any` of
Go's `map[string]any`); compound values are kept opaque. -/
inductive JValue where
  | str (s : String)
  | num (n : Int)
  | bool (b : Bool)
  | null
  | compound
deriving DecidableEq, Repr

/-- Outcome of `Session.ListRoots`: a communication failure, or a list of
declared roots (nil entries modelled by `none`; a nil result is the empty
list). -/
inductive ListRootsOutcome where
  | err
  | ok (roots : List (Option MCPRoot))
deriving DecidableEq, Repr

/-- The raw argument bytes of a call, by how `json.Unmarshal` treats them:
absent (`len == 0`), unparsable, or a parsed key-value map (keys unique). -/
inductive ArgsPayload where
  | empty
  | malformed
  | parsed (args : List (String × JValue))
deriving DecidableEq, Repr

/-- The fields of an `mcp.CallToolRequest` the middlewares read
(`hasSession` models `callReq.Session != nil`). -/
structure CallToolRequest where
  hasSession : Bool
  name : String
  payload : ArgsPayload
deriving DecidableEq, Repr

/-- An incoming request: a tool call, or any other request shape
(a non-`CallToolRequest`, modelled opaquely). -/
inductive Request where
  | call (req : CallToolRequest)
  | other
deriving DecidableEq, Repr

/-- An `mcp.CallToolResult` as far as enforcement builds one: the
recoverable-error flag and the text content. -/
structure CallToolResult where
  isError : Bool
  text : String
deriving DecidableEq, Repr

/-- Outcome of one middleware invocation: forward a request to the next
handler, or terminate with a result and a nil transport-level error (the
embedded middlewares have no branch producing a non-nil `error`). -/
inductive MWOutcome where
  | next (fwd : Request)
  | result (r : CallToolResult)
deriving DecidableEq, Repr

/-- Modelled from the spec: `utils.NewToolResultError` (pkg/utils, outside
src/) — a caller-visible recoverable tool error: a normal `CallToolResult`
flagged `IsError: true` carrying the message, not a transport failure. -/
def NewToolResultError (msg : String) : CallToolResult := ⟨true, msg⟩

/-- The argument map `json.Unmarshal` leaves behind: a parsed payload's
map, and the nil map for an absent payload. -/
def argsOf : ArgsPayload → List (String × JValue)
  | .parsed args => args
  | _ => []

/-- Map lookup on an argument map (`args[k]` with the comma-ok idiom). -/
def lookupArg (args : List (String × JValue)) (k : String) : Option JValue :=
  (args.find? fun p => decide (p.1 = k)).map (·.2)

/-- Go `%q` on the plain identifiers this layer prints (no escapes). -/
def quoteGo (s : String) : String := "\"" ++ s ++ "\""

/-- Model of Go `strings.Join(l, ", ")`. -/
def joinComma : List String → String
  | [] => ""
  | [x] => x
  | x :: xs => x ++ ", " ++ joinComma xs

/-- First-occurrence deduplication with an accumulator of seen keys. -/
def dedupAux (seen : List String) : List String → List String
  | [] => []
  | x :: xs => if x ∈ seen then dedupAux seen xs else x :: dedupAux (x :: seen) xs

/-- The distinct owners of a root list.  The Go code collects them in a
`map[string]bool` and iterates it in unspecified order; the model fixes
first-occurrence order, which carries the same set. -/
def allowedOwners (ghRoots : List Root) : List String :=
  dedupAux [] (ghRoots.map (·.Owner))

/-- The enforcement denial message for a disallowed owner
(src/unnamed/part_002, lines 92-101). -/
def ownerDenyMsg (owner : String) (ghRoots : List Root) : String :=
  "root enforcement: owner " ++ quoteGo owner ++
    " is not within configured roots (allowed owners: " ++
    joinComma ((allowedOwners ghRoots).map quoteGo) ++ ")"

/-- The repo-level roots recorded for `ownerLower` (src/unnamed/part_002,
lines 124-130): root order, no deduplication. -/
def allowedRepos (ownerLower : String) (ghRoots : List Root) : List String :=
  (ghRoots.filter fun r => decide (r.Owner = ownerLower ∧ r.Repo ≠ "")).map (·.Repo)

/-- The enforcement denial message for a disallowed owner/repo pair
(src/unnamed/part_002, lines 123-133). -/
def repoDenyMsg (owner repo ownerLower : String) (ghRoots : List Root) : String :=
  "root enforcement: repository " ++ quoteGo owner ++ "/" ++ quoteGo repo ++
    " is not within configured roots (allowed repos for " ++ quoteGo owner ++
    ": " ++ joinComma ((allowedRepos ownerLower ghRoots).map quoteGo) ++ ")"

/-- The argument check of `RootsEnforcementMiddleware` (src/unnamed/part_002,
lines 65-137): `none` means the call is allowed through, `some r` is the
denial result. -/
def enforceArgs (ghRoots : List Root) (args : List (String × JValue)) :
    Option CallToolResult :=
  match lookupArg args "owner" with
  | none => none
  | some ownerRaw =>
    match ownerRaw with
    | .str owner =>
      if owner = "" then none
      else
        let ownerLower := goToLower owner
        let ownerAllowed := ghRoots.any fun r => decide (r.Owner = ownerLower)
        let hasOrgRoot :=
          ghRoots.any fun r => decide (r.Owner = ownerLower ∧ r.Repo = "")
        if ownerAllowed then
          match lookupArg args "repo" with
          | none => none
          | some repoRaw =>
            match repoRaw with
            | .str repo =>
              if repo = "" then none
              else
                let repoLower := goToLower repo
                if hasOrgRoot then none
                else
                  let repoAllowed := ghRoots.any fun r =>
                    decide (r.Owner = ownerLower ∧ r.Repo = repoLower)
                  if repoAllowed then none
                  else some (NewToolResultError
                    (repoDenyMsg owner repo ownerLower ghRoots))
            | _ => none
        else some (NewToolResultError (ownerDenyMsg owner ghRoots))
    | _ => none

/-- Embedding of `RootsEnforcementMiddleware` (src/unnamed/part_002, lines
26-142) applied to one request; the owner/repo check itself is
`enforceArgs`. `session` is the outcome of the `ListRoots` round trip for
this call. -/
def RootsEnforcementMiddleware (host method : String) (request : Request)
    (session : ListRootsOutcome) : MWOutcome :=
  if method ≠ "tools/call" then .next request
  else
    match request with
    | .other => .next request
    | .call req =>
      if ¬ req.hasSession then .next request
      else
        match session with
        | .err => .next request
        | .ok mcpRoots =>
          if mcpRoots = [] then .next request
          else
            let ghRoots := ParseGitHubRoots mcpRoots host
            if ghRoots = [] then .next request
            else
              match req.payload with
              | .malformed => .next request
              | payload =>
                match enforceArgs ghRoots (argsOf payload) with
                | none => .next request
                | some r => .result r

/-- The argument-filling step of `RootsMiddleware`
(src/pkg/github/diff_viewer_resource.go, lines 96-148), run on the
non-empty root list `r0 :: rs` once all roots share one owner: `some args2`
when the `modified` flag is set (arguments to re-marshal into the request),
`none` when nothing was injected. -/
def injectArgs (r0 : Root) (rs : List Root) (args : List (String × JValue)) :
    Option (List (String × JValue)) :=
  let repoRoots := (r0 :: rs).filter fun r => decide (r.Repo ≠ "")
  let commonOwner := r0.Owner
  let injectOwner := (lookupArg args "owner").isNone
  let args1 :=
    if injectOwner then args ++ [("owner", JValue.str commonOwner)]
    else args
  let injectRepo :=
    match repoRoots with
    | [_] => (lookupArg args1 "repo").isNone
    | _ => false
  let args2 :=
    match repoRoots with
    | [rr] =>
      if (lookupArg args1 "repo").isNone then
        args1 ++ [("repo", JValue.str rr.Repo)]
      else args1
    | _ => args1
  if injectOwner || injectRepo then some args2 else none

/-- Embedding of `RootsMiddleware` (src/pkg/github/diff_viewer_resource.go,
lines 66-169), the injection middleware: it always forwards, returning the
(possibly argument-updated) request handed to the next handler; the
argument filling itself is `injectArgs`.  The re-marshal of a map produced
by `json.Unmarshal` cannot fail, so that Go branch has no counterpart. -/
def RootsMiddleware (host method : String) (request : Request)
    (session : ListRootsOutcome) : Request :=
  if method ≠ "tools/call" then request
  else
    match request with
    | .other => request
    | .call req =>
      if ¬ req.hasSession then request
      else
        match session with
        | .err => request
        | .ok mcpRoots =>
          if mcpRoots = [] then request
          else
            match ParseGitHubRoots mcpRoots host with
            | [] => request
            | r0 :: rs =>
              let allSameOwner := rs.all fun r => decide (r.Owner = r0.Owner)
              if ¬ allSameOwner then request
              else
                match req.payload with
                | .malformed => request
                | payload =>
                  match injectArgs r0 rs (argsOf payload) with
                  | some args2 => .call { req with payload := .parsed args2 }
                  | none => request

/-- Unfolding lemma: on a tool call with a session, a root listing that
resolves to a non-empty root list, and a parsed payload, enforcement
reduces to `enforceArgs`. -/
theorem enforcement_run (host name : String) (mcpRoots : List (Option MCPRoot))
    (args : List (String × JValue)) (hm : mcpRoots ≠ [])
    (hS : ParseGitHubRoots mcpRoots host ≠ []) :
    RootsEnforcementMiddleware host "tools/call"
        (.call ⟨true, name, .parsed args⟩) (.ok mcpRoots) =
      match enforceArgs (ParseGitHubRoots mcpRoots host) args with
      | none => .next (.call ⟨true, name, .parsed args⟩)
      | some r => .result r := by
  simp [RootsEnforcementMiddleware, hm, hS, argsOf]

/-- Unfolding lemma: on a tool call with a session and a parsed payload,
when the resolved roots `r0 :: rs` all share one owner, injection reduces
to `injectArgs`. -/
theorem injection_run (host name : String) (mcpRoots : List (Option MCPRoot))
    (args : List (String × JValue)) (r0 : Root) (rs : List Root)
    (hm : mcpRoots ≠ []) (hgh : ParseGitHubRoots mcpRoots host = r0 :: rs)
    (hsame : (rs.all fun r => decide (r.Owner = r0.Owner)) = true) :
    RootsMiddleware host "tools/call"
        (.call ⟨true, name, .parsed args⟩) (.ok mcpRoots) =
      match injectArgs r0 rs args with
      | some args2 => .call ⟨true, name, .parsed args2⟩
      | none => .call ⟨true, name, .parsed args⟩ := by
  simp [RootsMiddleware, hm, hgh, hsame, argsOf]

/-- Unfolding lemma: when the resolved roots span two distinct owners,
injection forwards the request unchanged. -/
theorem injection_run_multi (host method : String) (request : Request)
    (mcpRoots : List (Option MCPRoot)) (r0 : Root) (rs : List Root)
    (hgh : ParseGitHubRoots mcpRoots host = r0 :: rs)
    (hsame : (rs.all fun r => decide (r.Owner = r0.Owner)) = false) :
    RootsMiddleware host method request (.ok mcpRoots) = request := by
  have hm : mcpRoots ≠ [] := by
    intro h; rw [h] at hgh; exact List.noConfusion hgh
  cases request with
  | other => simp [RootsMiddleware]
  | call req =>
    by_cases hmeth : method = "tools/call"
    · subst hmeth
      cases req with
      | mk hasSession name payload =>
        cases hasSession with
        | false => simp [RootsMiddleware]
        | true => cases payload <;> simp [RootsMiddleware, hm, hgh, hsame]
    · simp [RootsMiddleware, hmeth]

/-- C10: the enforcement middleware never mutates a call it allows — any
request it forwards to the next handler is exactly the request received. -/
theorem enforcement_forwards_request_unchanged :
    ∀ (host method : String) (request : Request) (session : ListRootsOutcome)
      (fwd : Request),
      RootsEnforcementMiddleware host method request session = .next fwd →
      fwd = request := by
  intro host method request session fwd h
  unfold RootsEnforcementMiddleware at h
  repeat' split at h
  all_goals try (simp only [] at h; repeat' split at h)
  all_goals simp_all

/-- Witness for C10 at a concrete allowed call. -/
theorem enforcement_forwards_request_unchanged_witness :
    (Request.call ⟨true, "echo_args",
        .parsed [("owner", JValue.str "octocat"), ("repo", JValue.str "Hello-World")]⟩) =
      Request.call ⟨true, "echo_args",
        .parsed [("owner", JValue.str "octocat"), ("repo", JValue.str "Hello-World")]⟩ :=
  enforcement_forwards_request_unchanged "github.com" "tools/call"
    (Request.call ⟨true, "echo_args",
      .parsed [("owner", JValue.str "octocat"), ("repo", JValue.str "Hello-World")]⟩)
    (.ok [some ⟨"https://github.com/octocat/Hello-World", ""⟩]) _ rfl

/-- An `owner` argument that is not a string, or is the empty string,
makes the check a no-op (src/unnamed/part_002, lines 71-74). -/
theorem enforceArgs_nonstring_owner (gh : List Root) (args : List (String × JValue))
    (v : JValue) (hlook : lookupArg args "owner" = some v)
    (hv : (∀ s, v ≠ .str s) ∨ v = .str "") : enforceArgs gh args = none := by
  unfold enforceArgs
  rw [hlook]
  rcases hv with hv | hv
  · cases v with
    | str s => exact absurd rfl (hv s)
    | num n => rfl
    | bool b => rfl
    | null => rfl
    | compound => rfl
  · subst hv; simp

/-- C9: a call whose `owner` argument is present but not a string, or is
the empty string, passes enforcement unexamined, whatever roots exist. -/
theorem enforcement_nonstring_owner_passes :
    ∀ (host method : String) (request : Request) (session : ListRootsOutcome)
      (req : CallToolRequest) (args : List (String × JValue)) (v : JValue),
      request = .call req → req.payload = .parsed args →
      lookupArg args "owner" = some v →
      ((∀ s, v ≠ .str s) ∨ v = .str "") →
      RootsEnforcementMiddleware host method request session = .next request := by
  intro host method request session req args v hreq hpay hlook hv
  subst hreq
  obtain ⟨hasSess, name, payload⟩ := req
  simp only at hpay
  subst hpay
  by_cases hmeth : method = "tools/call"
  · subst hmeth
    cases session with
    | err => cases hasSess <;> simp [RootsEnforcementMiddleware]
    | ok mcpRoots =>
      cases hasSess with
      | false => simp [RootsEnforcementMiddleware]
      | true =>
        by_cases hm : mcpRoots = []
        · simp [RootsEnforcementMiddleware, hm]
        · by_cases hgh : ParseGitHubRoots mcpRoots host = []
          · simp [RootsEnforcementMiddleware, hm, hgh]
          · simp [RootsEnforcementMiddleware, hm, hgh, argsOf,
              enforceArgs_nonstring_owner _ args v hlook hv]
  · simp [RootsEnforcementMiddleware, hmeth]

/-- Witness for C9: a numeric `owner` argument passes through even though
a root is configured. -/
theorem enforcement_nonstring_owner_passes_witness :
    RootsEnforcementMiddleware "github.com" "tools/call"
        (.call ⟨true, "echo_args", .parsed [("owner", JValue.num 7)]⟩)
        (.ok [some ⟨"https://github.com/octocat/Hello-World", ""⟩]) =
      .next (.call ⟨true, "echo_args", .parsed [("owner", JValue.num 7)]⟩) :=
  enforcement_nonstring_owner_passes "github.com" "tools/call"
    (.call ⟨true, "echo_args", .parsed [("owner", JValue.num 7)]⟩)
    (.ok [some ⟨"https://github.com/octocat/Hello-World", ""⟩])
    ⟨true, "echo_args", .parsed [("owner", JValue.num 7)]⟩
    [("owner", JValue.num 7)] (JValue.num 7) rfl rfl rfl
    (Or.inl fun _ h => JValue.noConfusion h)

/-- A soft failure: the root listing failed, the listing resolved to no
GitHub roots, or the argument payload is unparsable. -/
def SoftFailure (host : String) (request : Request) (session : ListRootsOutcome) : Prop :=
  session = .err ∨
    (∃ l, session = .ok l ∧ ParseGitHubRoots l host = []) ∨
    (∃ req, request = .call req ∧ req.payload = .malformed)

theorem enforcement_soft (host method : String) (request : Request)
    (session : ListRootsOutcome) (hsoft : SoftFailure host request session) :
    RootsEnforcementMiddleware host method request session = .next request := by
  by_cases hmeth : method = "tools/call"
  · subst hmeth
    cases request with
    | other => simp [RootsEnforcementMiddleware]
    | call req =>
      obtain ⟨hasSess, name, payload⟩ := req
      cases hasSess with
      | false => simp [RootsEnforcementMiddleware]
      | true =>
        rcases hsoft with hs | ⟨l, hs, hl⟩ | ⟨req', hr, hp⟩
        · subst hs; simp [RootsEnforcementMiddleware]
        · subst hs
          by_cases hm : l = []
          · simp [RootsEnforcementMiddleware, hm]
          · simp [RootsEnforcementMiddleware, hm, hl]
        · cases hr
          simp only at hp
          subst hp
          cases session with
          | err => simp [RootsEnforcementMiddleware]
          | ok l =>
            by_cases hm : l = []
            · simp [RootsEnforcementMiddleware, hm]
            · by_cases hgh : ParseGitHubRoots l host = []
              · simp [RootsEnforcementMiddleware, hm, hgh]
              · simp [RootsEnforcementMiddleware, hm, hgh]
  · simp [RootsEnforcementMiddleware, hmeth]

theorem injection_soft (host method : String) (request : Request)
    (session : ListRootsOutcome) (hsoft : SoftFailure host request session) :
    RootsMiddleware host method request session = request := by
  by_cases hmeth : method = "tools/call"
  · subst hmeth
    cases request with
    | other => simp [RootsMiddleware]
    | call req =>
      obtain ⟨hasSess, name, payload⟩ := req
      cases hasSess with
      | false => simp [RootsMiddleware]
      | true =>
        rcases hsoft with hs | ⟨l, hs, hl⟩ | ⟨req', hr, hp⟩
        · subst hs; simp [RootsMiddleware]
        · subst hs
          by_cases hm : l = []
          · simp [RootsMiddleware, hm]
          · simp [RootsMiddleware, hm, hl]
        · cases hr
          simp only at hp
          subst hp
          cases session with
          | err => simp [RootsMiddleware]
          | ok l =>
            by_cases hm : l = []
            · simp [RootsMiddleware, hm]
            · match hgh : ParseGitHubRoots l host with
              | [] => simp [RootsMiddleware, hm, hgh]
              | r0 :: rs =>
                by_cases hsame : (rs.all fun r => decide (r.Owner = r0.Owner)) = true
                · simp [RootsMiddleware, hm, hgh, hsame]
                · simp [RootsMiddleware, hm, hgh, hsame]
  · simp [RootsMiddleware, hmeth]

/-- C6: soft failures — a failed root listing, an empty resolved root
list, or an unparsable argument payload — make both middlewares forward
the call unchanged, producing neither a denial nor a transport failure. -/
theorem soft_failures_pass_through :
    ∀ (host method : String) (request : Request) (session : ListRootsOutcome),
      SoftFailure host request session →
      RootsEnforcementMiddleware host method request session = .next request ∧
      RootsMiddleware host method request session = request := by
  intro host method request session hsoft
  exact ⟨enforcement_soft host method request session hsoft,
    injection_soft host method request session hsoft⟩

/-- Witness for C6: a malformed payload passes both middlewares unchanged
even with a configured root. -/
theorem soft_failures_pass_through_witness :
    RootsEnforcementMiddleware "github.com" "tools/call"
        (.call ⟨true, "echo_args", .malformed⟩)
        (.ok [some ⟨"https://github.com/octocat/Hello-World", ""⟩]) =
      .next (.call ⟨true, "echo_args", .malformed⟩) ∧
    RootsMiddleware "github.com" "tools/call"
        (.call ⟨true, "echo_args", .malformed⟩)
        (.ok [some ⟨"https://github.com/octocat/Hello-World", ""⟩]) =
      .call ⟨true, "echo_args", .malformed⟩ :=
  soft_failures_pass_through "github.com" "tools/call"
    (.call ⟨true, "echo_args", .malformed⟩)
    (.ok [some ⟨"https://github.com/octocat/Hello-World", ""⟩])
    (Or.inr (Or.inr ⟨⟨true, "echo_args", .malformed⟩, rfl, rfl⟩))

/-- C5 (divergence record): on Scenario A — the single root
`https://github.com/octocat/Hello-World` and arguments `{state:"open"}` —
the injection middleware produces owner `octocat` and repo `hello-world`:
`ParseGitHubRootURI` lowercases the repo segment, so the injected repo is
not the spec's (and the repository's own test's) expected `Hello-World`. -/
theorem scenarioA_injects_lowercased_repo :
    RootsMiddleware "github.com" "tools/call"
        (.call ⟨true, "echo_args", .parsed [("state", .str "open")]⟩)
        (.ok [some ⟨"https://github.com/octocat/Hello-World", "Hello World repo"⟩]) =
      .call ⟨true, "echo_args", .parsed [("state", .str "open"),
        ("owner", .str "octocat"), ("repo", .str "hello-world")]⟩ ∧
    ("hello-world" : String) ≠ "Hello-World" :=
  ⟨rfl, by decide⟩

/-- The allowedness predicate exactly as claim C1 words it (spec side, for
comparison with the code): some root matches the lowercased owner, and that
root is organization-level, or the repo argument `R` is absent, or some
root for that owner matches the lowercased repo. -/
def claimC1Allowed (S : List Root) (O : String) (R : Option String) : Prop :=
  ∃ r ∈ S, r.Owner = goToLower O ∧
    (r.Repo = "" ∨ R = none ∨
      ∃ rr ∈ S, rr.Owner = goToLower O ∧ R.map goToLower = some rr.Repo)

instance (S : List Root) (O : String) (R : Option String) :
    Decidable (claimC1Allowed S O R) := by
  unfold claimC1Allowed; exact inferInstance

/-- C1 counterexample: with the single root
`https://github.com/octocat/Hello-World` (non-empty resolved set) and the
string arguments owner `octocat`, repo `""`, enforcement passes the call to
the handler, while the claim's condition is false for that owner and repo —
the claimed equivalence fails at the empty-string repo argument. -/
theorem c1_counterexample :
    RootsEnforcementMiddleware "github.com" "tools/call"
        (.call ⟨true, "echo_args",
          .parsed [("owner", .str "octocat"), ("repo", .str "")]⟩)
        (.ok [some ⟨"https://github.com/octocat/Hello-World", ""⟩]) =
      .next (.call ⟨true, "echo_args",
        .parsed [("owner", .str "octocat"), ("repo", .str "")]⟩) ∧
    ParseGitHubRoots [some ⟨"https://github.com/octocat/Hello-World", ""⟩]
        "github.com" ≠ [] ∧
    ¬ claimC1Allowed
        (ParseGitHubRoots [some ⟨"https://github.com/octocat/Hello-World", ""⟩]
          "github.com")
        "octocat" (some "") :=
  ⟨rfl, by decide, by decide⟩

/-- Core of the amended C1: for a non-empty string owner and a repo
argument that is absent or a non-empty string, the check passes exactly
under the claim's condition. -/
theorem enforceArgs_none_iff (S : List Root) (args : List (String × JValue))
    (O : String) (R? : Option String)
    (hO : lookupArg args "owner" = some (.str O)) (hOne : O ≠ "")
    (hR : match R? with
          | none => lookupArg args "repo" = none
          | some R => lookupArg args "repo" = some (.str R) ∧ R ≠ "") :
    enforceArgs S args = none ↔ claimC1Allowed S O R? := by
  unfold enforceArgs claimC1Allowed
  simp only [hO]
  rw [if_neg hOne]
  cases hA : S.any fun r => decide (r.Owner = goToLower O) with
  | false =>
    simp only [hA, Bool.false_eq_true, if_false]
    simp only [List.any_eq_false, decide_eq_true_eq] at hA
    constructor
    · intro h; exact absurd h (by simp)
    · rintro ⟨r, hrS, hrOwn, _⟩; exact absurd hrOwn (hA r hrS)
  | true =>
    simp only [hA, if_true]
    have hAex : ∃ r ∈ S, r.Owner = goToLower O := by
      simpa [List.any_eq_true, decide_eq_true_eq] using hA
    obtain ⟨r, hrS, hrOwn⟩ := hAex
    cases R? with
    | none =>
      simp only [hR]
      exact iff_of_true (by trivial) ⟨r, hrS, hrOwn, Or.inr (Or.inl (by trivial))⟩
    | some R =>
      obtain ⟨hRlook, hRne⟩ := hR
      simp only [hRlook]
      rw [if_neg hRne]
      cases hOrg : S.any fun r => decide (r.Owner = goToLower O ∧ r.Repo = "") with
      | true =>
        simp only [hOrg, if_true, true_iff]
        have : ∃ r ∈ S, r.Owner = goToLower O ∧ r.Repo = "" := by
          simpa [List.any_eq_true, decide_eq_true_eq] using hOrg
        obtain ⟨r', hr'S, hr'Own, hr'Repo⟩ := this
        exact ⟨r', hr'S, hr'Own, Or.inl hr'Repo⟩
      | false =>
        simp only [hOrg, Bool.false_eq_true, if_false]
        have hOrg' : ∀ r ∈ S, ¬(r.Owner = goToLower O ∧ r.Repo = "") := by
          simpa [List.any_eq_false, decide_eq_true_eq] using hOrg
        cases hRA : S.any fun r =>
            decide (r.Owner = goToLower O ∧ r.Repo = goToLower R) with
        | true =>
          simp only [hRA, if_true, true_iff]
          have : ∃ r ∈ S, r.Owner = goToLower O ∧ r.Repo = goToLower R := by
            simpa [List.any_eq_true, decide_eq_true_eq] using hRA
          obtain ⟨rr, hrrS, hrrOwn, hrrRepo⟩ := this
          exact ⟨r, hrS, hrOwn,
            Or.inr (Or.inr ⟨rr, hrrS, hrrOwn, by simp [hrrRepo]⟩)⟩
        | false =>
          simp only [hRA, Bool.false_eq_true, if_false]
          have hRA' : ∀ r ∈ S, ¬(r.Owner = goToLower O ∧ r.Repo = goToLower R) := by
            simpa [List.any_eq_false, decide_eq_true_eq] using hRA
          constructor
          · intro h; exact absurd h (by simp)
          · rintro ⟨r', hr'S, hr'Own, hdisj⟩
            exfalso
            rcases hdisj with hrep | habs | ⟨rr, hrrS, hrrOwn, hrrRepo⟩
            · exact hOrg' r' hr'S ⟨hr'Own, hrep⟩
            · exact Option.noConfusion habs
            · have h1 := hrrRepo
              simp at h1
              exact hRA' rr hrrS ⟨hrrOwn, by first | exact h1 | exact h1.symm⟩

/-- C1 amended: for every tool call carrying a non-empty string owner `O`,
a repo argument that is absent or a non-empty string, and a non-empty
resolved root set, the call is passed to the handler iff the claim's
condition holds.  Empty-string arguments fall outside this equivalence:
there the code skips the corresponding sub-check (only that sub-check, as
the counterexample's empty repo shows; the empty-or-non-string owner case
is settled separately under C9). -/
theorem c1_amended :
    ∀ (host name : String) (mcpRoots : List (Option MCPRoot))
      (args : List (String × JValue)) (O : String) (R? : Option String),
      ParseGitHubRoots mcpRoots host ≠ [] →
      lookupArg args "owner" = some (.str O) → O ≠ "" →
      (match R? with
       | none => lookupArg args "repo" = none
       | some R => lookupArg args "repo" = some (.str R) ∧ R ≠ "") →
      (RootsEnforcementMiddleware host "tools/call"
          (.call ⟨true, name, .parsed args⟩) (.ok mcpRoots) =
        .next (.call ⟨true, name, .parsed args⟩) ↔
       claimC1Allowed (ParseGitHubRoots mcpRoots host) O R?) := by
  intro host name mcpRoots args O R? hS hO hOne hR
  have hm : mcpRoots ≠ [] := fun h => hS (by rw [h]; rfl)
  rw [enforcement_run host name mcpRoots args hm hS]
  cases h : enforceArgs (ParseGitHubRoots mcpRoots host) args with
  | none =>
    simp only [h]
    simp only [true_iff]
    exact (enforceArgs_none_iff _ args O R? hO hOne hR).mp h
  | some r =>
    simp only [h]
    constructor
    · intro hfalse; exact absurd hfalse (by simp)
    · intro hc
      have := (enforceArgs_none_iff _ args O R? hO hOne hR).mpr hc
      rw [this] at h
      exact Option.noConfusion h

/-- Witness for the amended C1 at a concrete allowed call. -/
theorem c1_amended_witness :
    RootsEnforcementMiddleware "github.com" "tools/call"
        (.call ⟨true, "echo_args",
          .parsed [("owner", .str "octocat"), ("repo", .str "Hello-World")]⟩)
        (.ok [some ⟨"https://github.com/octocat/Hello-World", ""⟩]) =
      .next (.call ⟨true, "echo_args",
        .parsed [("owner", .str "octocat"), ("repo", .str "Hello-World")]⟩) ↔
    claimC1Allowed
      (ParseGitHubRoots [some ⟨"https://github.com/octocat/Hello-World", ""⟩]
        "github.com")
      "octocat" (some "Hello-World") :=
  c1_amended "github.com" "echo_args"
    [some ⟨"https://github.com/octocat/Hello-World", ""⟩]
    [("owner", .str "octocat"), ("repo", .str "Hello-World")]
    "octocat" (some "Hello-World") (by decide) rfl (by decide) ⟨rfl, by decide⟩

/-- C8 counterexample: the two source variants of `ParseGitHubRootURI`
disagree — the part_005 variant rejects the organization-level URI
`https://github.com/octocat` that the part_004 variant accepts, and on
`https://github.com/OctoCat/My-Repo` the two succeed with different
(case-normalized vs. verbatim) results. -/
theorem parse_variants_disagree :
    ParseGitHubRootURI "https://github.com/octocat" "github.com" =
      .ok ("octocat", "") ∧
    (ParseGitHubRootURIAlt "https://github.com/octocat" "github.com").toOption =
      none ∧
    ParseGitHubRootURI "https://github.com/OctoCat/My-Repo" "github.com" =
      .ok ("octocat", "my-repo") ∧
    ParseGitHubRootURIAlt "https://github.com/OctoCat/My-Repo" "github.com" =
      .ok ("OctoCat", "My-Repo") :=
  ⟨rfl, rfl, rfl, rfl⟩

/-- C8 amended: the part_005 variant refines the part_004 variant up to
case normalization — whenever it succeeds with `(o, r)`, the part_004
variant succeeds on the same input with `(lower o, lower r)`. -/
theorem alt_refines_main :
    ∀ (uri host o r : String),
      ParseGitHubRootURIAlt uri host = .ok (o, r) →
      ParseGitHubRootURI uri host = .ok (goToLower o, goToLower r) := by
  intro uri host o r h
  cases hurl : urlParse uri with
  | none => simp [ParseGitHubRootURIAlt, hurl] at h
  | some parsed =>
    simp only [ParseGitHubRootURIAlt, hurl] at h
    simp only [ParseGitHubRootURI, hurl]
    by_cases hsch : parsed.scheme = "https" ∨ parsed.scheme = "http" ∨
        parsed.scheme = "git"
    · rw [if_pos hsch] at h ⊢
      by_cases hhost : goEqualFold parsed.host
          (if host = "" then "github.com" else host) = true
      · rw [if_pos hhost] at h ⊢
        by_cases hpath : goTrimSuf (goTrimPre parsed.path "/") "/" = ""
        · rw [if_pos hpath] at h; exact Except.noConfusion h
        · rw [if_neg hpath] at h ⊢
          cases hsegs : splitN3 (goTrimSuf (goTrimPre parsed.path "/") "/") '/' with
          | nil => simp only [hsegs] at h; exact Except.noConfusion h
          | cons seg0 rest =>
            cases rest with
            | nil => simp only [hsegs] at h; exact Except.noConfusion h
            | cons seg1 rest' =>
              simp only [hsegs] at h ⊢
              by_cases h01 : seg0 = "" ∨ seg1 = ""
              · rw [if_pos h01] at h; exact Except.noConfusion h
              · rw [if_neg h01] at h
                by_cases hrep : goTrimSuf seg1 ".git" = ""
                · rw [if_pos hrep] at h; exact Except.noConfusion h
                · rw [if_neg hrep] at h
                  have hseg0 : ¬ seg0 = "" := fun hh => h01 (Or.inl hh)
                  have hseg1 : ¬ seg1 = "" := fun hh => h01 (Or.inr hh)
                  obtain ⟨ho, hr⟩ : seg0 = o ∧ goTrimSuf seg1 ".git" = r := by
                    have := Except.ok.inj h
                    exact ⟨congrArg Prod.fst this, congrArg Prod.snd this⟩
                  rw [if_neg hseg0]
                  simp only [hseg1, ne_eq, not_false_iff, if_true, ho, hr]
      · rw [if_neg hhost] at h; exact Except.noConfusion h
    · rw [if_neg hsch] at h; exact Except.noConfusion h

/-- Witness for the amended C8 at a mixed-case repo-level URI. -/
theorem alt_refines_main_witness :
    ParseGitHubRootURI "https://github.com/OctoCat/My-Repo" "github.com" =
      .ok (goToLower "OctoCat", goToLower "My-Repo") :=
  alt_refines_main "https://github.com/OctoCat/My-Repo" "github.com"
    "OctoCat" "My-Repo" rfl

theorem lookupArg_append (args : List (String × JValue)) (k : String) (v : JValue)
    (k' : String) :
    lookupArg (args ++ [(k, v)]) k' =
      match lookupArg args k' with
      | some w => some w
      | none => if k = k' then some v else none := by
  induction args with
  | nil => by_cases h : k = k' <;> simp [lookupArg, List.find?, h]
  | cons a args ih =>
    by_cases ha : a.1 = k'
    · simp [lookupArg, List.find?, ha]
    · simp only [lookupArg, List.cons_append, List.find?] at ih ⊢
      rw [decide_eq_false ha]
      exact ih

/-- What one run of the argument-filling step does to the final argument
map (`injectArgs` returns `none` exactly when it leaves the map alone). -/
theorem injectArgs_spec (r0 : Root) (rs : List Root)
    (args : List (String × JValue)) :
    ∃ args2, (match injectArgs r0 rs args with
              | some a => a
              | none => args) = args2 ∧
      (lookupArg args "owner" = none →
        lookupArg args2 "owner" = some (.str r0.Owner)) ∧
      (∀ rr, (r0 :: rs).filter (fun r => decide (r.Repo ≠ "")) = [rr] →
        lookupArg args "repo" = none →
        lookupArg args2 "repo" = some (.str rr.Repo)) ∧
      ((∀ rr, (r0 :: rs).filter (fun r => decide (r.Repo ≠ "")) ≠ [rr]) →
        lookupArg args2 "repo" = lookupArg args "repo") ∧
      (∀ k w, lookupArg args k = some w → lookupArg args2 k = some w) ∧
      (∀ k, k ≠ "owner" → k ≠ "repo" → lookupArg args2 k = lookupArg args k) := by
  have hne : ("owner" : String) ≠ "repo" := by decide
  obtain ⟨ow, hOwn⟩ : ∃ o, lookupArg args "owner" = o := ⟨_, rfl⟩
  obtain ⟨fl, hfil⟩ : ∃ l, (r0 :: rs).filter (fun r => decide (r.Repo ≠ "")) = l :=
    ⟨_, rfl⟩
  obtain ⟨rp, hRep⟩ : ∃ o, lookupArg args "repo" = o := ⟨_, rfl⟩
  cases ow with
  | some w =>
    match fl, hfil with
    | [], hfil =>
      have hE : injectArgs r0 rs args = none := by
        unfold injectArgs
        simp only [hOwn, hfil, Option.isNone_some, Bool.false_or, Bool.or_false]
        simp [hRep, lookupArg_append, hne]
      refine ⟨args, by rw [hE], ?_, ?_, ?_, ?_, ?_⟩
      · intro h; rw [hOwn] at h; exact Option.noConfusion h
      · intro rr h; rw [hfil] at h; exact absurd h (by simp)
      · intro _; rfl
      · intro k w h; exact h
      · intro k _ _; rfl
    | [rr], hfil =>
      cases rp with
      | some w2 =>
        have hE : injectArgs r0 rs args = none := by
          unfold injectArgs
          simp only [hOwn, hfil, hRep, Option.isNone_some, Bool.false_or,
            Bool.or_false]
          simp [hRep, lookupArg_append, hne]
        refine ⟨args, by rw [hE], ?_, ?_, ?_, ?_, ?_⟩
        · intro h; rw [hOwn] at h; exact Option.noConfusion h
        · intro rr' _ hN; rw [hRep] at hN; exact Option.noConfusion hN
        · intro _; rfl
        · intro k w h; exact h
        · intro k _ _; rfl
      | none =>
        have hE : injectArgs r0 rs args =
            some (args ++ [("repo", JValue.str rr.Repo)]) := by
          unfold injectArgs
          simp only [hOwn, hfil, hRep, Option.isNone_some, Option.isNone_none,
            Bool.false_or, Bool.or_true]
          simp [hRep, lookupArg_append, hne]
        refine ⟨args ++ [("repo", JValue.str rr.Repo)], by rw [hE], ?_, ?_, ?_, ?_, ?_⟩
        · intro h; rw [hOwn] at h; exact Option.noConfusion h
        · intro rr' hrr' _
          have hrr : rr' = rr := by
            rw [hfil] at hrr'
            exact ((List.cons.inj hrr').1).symm
          subst hrr
          rw [lookupArg_append, hRep]
          simp
        · intro hno; exact absurd hfil (hno rr)
        · intro k w h; rw [lookupArg_append, h]
        · intro k _ h2
          rw [lookupArg_append]
          cases h : lookupArg args k with
          | some w => rfl
          | none => rw [if_neg (fun hh => h2 hh.symm)]
    | rr :: rr2 :: rest2, hfil =>
      have hE : injectArgs r0 rs args = none := by
        unfold injectArgs
        simp only [hOwn, hfil, Option.isNone_some, Bool.false_or, Bool.or_false]
        simp [hRep, lookupArg_append, hne]
      refine ⟨args, by rw [hE], ?_, ?_, ?_, ?_, ?_⟩
      · intro h; rw [hOwn] at h; exact Option.noConfusion h
      · intro rr' h; rw [hfil] at h; simp at h
      · intro _; rfl
      · intro k w h; exact h
      · intro k _ _; rfl
  | none =>
    have hOwn1 : lookupArg (args ++ [("owner", JValue.str r0.Owner)]) "owner" =
        some (JValue.str r0.Owner) := by
      rw [lookupArg_append, hOwn]; simp
    have hRep1 : lookupArg (args ++ [("owner", JValue.str r0.Owner)]) "repo" =
        lookupArg args "repo" := by
      rw [lookupArg_append]
      cases h : lookupArg args "repo" with
      | some w => rfl
      | none => rw [if_neg hne]
    have hKeep : ∀ k w, lookupArg args k = some w →
        lookupArg (args ++ [("owner", JValue.str r0.Owner)]) k = some w := by
      intro k w h; rw [lookupArg_append, h]
    have hOther : ∀ k, k ≠ "owner" →
        lookupArg (args ++ [("owner", JValue.str r0.Owner)]) k = lookupArg args k := by
      intro k h1
      rw [lookupArg_append]
      cases h : lookupArg args k with
      | some w => rfl
      | none => rw [if_neg (fun hh => h1 hh.symm)]
    match fl, hfil with
    | [], hfil =>
      have hE : injectArgs r0 rs args =
          some (args ++ [("owner", JValue.str r0.Owner)]) := by
        unfold injectArgs
        simp only [hOwn, hfil, Option.isNone_none, Bool.true_or]
        simp [hRep, lookupArg_append, hne]
      refine ⟨args ++ [("owner", JValue.str r0.Owner)], by rw [hE], ?_, ?_, ?_, ?_, ?_⟩
      · intro _; exact hOwn1
      · intro rr h; rw [hfil] at h; exact absurd h (by simp)
      · intro _; exact hRep1
      · exact hKeep
      · intro k h1 _; exact hOther k h1
    | [rr], hfil =>
      cases rp with
      | some w2 =>
        have hRepA : lookupArg (args ++ [("owner", JValue.str r0.Owner)]) "repo" =
            some w2 := by rw [hRep1, hRep]
        have hE : injectArgs r0 rs args =
            some (args ++ [("owner", JValue.str r0.Owner)]) := by
          unfold injectArgs
          simp only [hOwn, hfil, hRepA, Option.isNone_none, Option.isNone_some,
            Bool.true_or]
          simp [hRep, hRepA, lookupArg_append, hne]
        refine ⟨args ++ [("owner", JValue.str r0.Owner)], by rw [hE], ?_, ?_, ?_, ?_, ?_⟩
        · intro _; exact hOwn1
        · intro rr' _ hN; rw [hRep] at hN; exact Option.noConfusion hN
        · intro hno; exact absurd hfil (hno rr)
        · exact hKeep
        · intro k h1 _; exact hOther k h1
      | none =>
        have hRepA : lookupArg (args ++ [("owner", JValue.str r0.Owner)]) "repo" =
            none := by rw [hRep1, hRep]
        have hE : injectArgs r0 rs args =
            some (args ++ [("owner", JValue.str r0.Owner)] ++
              [("repo", JValue.str rr.Repo)]) := by
          unfold injectArgs
          simp only [hOwn, hfil, hRepA, Option.isNone_none, Bool.true_or]
          simp [hRep, hRepA, lookupArg_append, hne]
        refine ⟨args ++ [("owner", JValue.str r0.Owner)] ++ [("repo", JValue.str rr.Repo)],
          by rw [hE], ?_, ?_, ?_, ?_, ?_⟩
        · intro _
          rw [lookupArg_append, hOwn1]
        · intro rr' hrr' _
          have hrr : rr' = rr := by
            rw [hfil] at hrr'
            exact ((List.cons.inj hrr').1).symm
          subst hrr
          rw [lookupArg_append, hRepA]
          simp
        · intro hno; exact absurd hfil (hno rr)
        · intro k w h
          rw [lookupArg_append, hKeep k w h]
        · intro k h1 h2
          rw [lookupArg_append, hOther k h1]
          cases h : lookupArg args k with
          | some w => rfl
          | none => rw [if_neg (fun hh => h2 hh.symm)]
    | rr :: rr2 :: rest2, hfil =>
      have hE : injectArgs r0 rs args =
          some (args ++ [("owner", JValue.str r0.Owner)]) := by
        unfold injectArgs
        simp only [hOwn, hfil, Option.isNone_none, Bool.true_or]
        simp [hRep, lookupArg_append, hne]
      refine ⟨args ++ [("owner", JValue.str r0.Owner)], by rw [hE], ?_, ?_, ?_, ?_, ?_⟩
      · intro _; exact hOwn1
      · intro rr' h; rw [hfil] at h; simp at h
      · intro _; exact hRep1
      · exact hKeep
      · intro k h1 _; exact hOther k h1

/-- C2: on a call whose resolved roots all share one owner, injection sets
`owner` only when absent (to the common owner) and `repo` only when absent
and exactly one resolved root is repo-level (to that root's repo); with
zero or several repo-level roots `repo` is untouched; roots spanning two
distinct owners cause no mutation; present fields are never overwritten
and no other field is touched. -/
theorem injection_spec :
    ∀ (host name : String) (mcpRoots : List (Option MCPRoot))
      (args : List (String × JValue)) (r0 : Root) (rs : List Root),
      ParseGitHubRoots mcpRoots host = r0 :: rs →
      ((∃ ra ∈ r0 :: rs, ∃ rb ∈ r0 :: rs, ra.Owner ≠ rb.Owner) →
        RootsMiddleware host "tools/call" (.call ⟨true, name, .parsed args⟩)
          (.ok mcpRoots) = .call ⟨true, name, .parsed args⟩) ∧
      ((∀ ra ∈ r0 :: rs, ra.Owner = r0.Owner) →
        ∃ args2,
          RootsMiddleware host "tools/call" (.call ⟨true, name, .parsed args⟩)
            (.ok mcpRoots) = .call ⟨true, name, .parsed args2⟩ ∧
          (lookupArg args "owner" = none →
            lookupArg args2 "owner" = some (.str r0.Owner)) ∧
          (∀ rr, (r0 :: rs).filter (fun r => decide (r.Repo ≠ "")) = [rr] →
            lookupArg args "repo" = none →
            lookupArg args2 "repo" = some (.str rr.Repo)) ∧
          ((∀ rr, (r0 :: rs).filter (fun r => decide (r.Repo ≠ "")) ≠ [rr]) →
            lookupArg args2 "repo" = lookupArg args "repo") ∧
          (∀ k w, lookupArg args k = some w → lookupArg args2 k = some w) ∧
          (∀ k, k ≠ "owner" → k ≠ "repo" →
            lookupArg args2 k = lookupArg args k)) := by
  intro host name mcpRoots args r0 rs hgh
  have hm : mcpRoots ≠ [] := by
    intro h; rw [h] at hgh; exact List.noConfusion hgh
  constructor
  · rintro ⟨ra, hra, rb, hrb, hab⟩
    cases hb : rs.all (fun r => decide (r.Owner = r0.Owner)) with
    | false => exact injection_run_multi host "tools/call" _ mcpRoots r0 rs hgh hb
    | true =>
      exfalso
      have hall : ∀ r ∈ rs, r.Owner = r0.Owner := by
        simpa [List.all_eq_true] using hb
      have howner : ∀ r ∈ r0 :: rs, r.Owner = r0.Owner := by
        intro r hr
        rcases List.mem_cons.mp hr with rfl | hr
        · rfl
        · exact hall r hr
      exact hab ((howner ra hra).trans (howner rb hrb).symm)
  · intro hsame
    have hb : (rs.all fun r => decide (r.Owner = r0.Owner)) = true := by
      simp only [List.all_eq_true, decide_eq_true_eq]
      intro r hr
      exact hsame r (List.mem_cons_of_mem _ hr)
    rw [injection_run host name mcpRoots args r0 rs hm hgh hb]
    obtain ⟨args2, hres, p1, p2, p3, p4, p5⟩ := injectArgs_spec r0 rs args
    refine ⟨args2, ?_, p1, p2, p3, p4, p5⟩
    cases hI : injectArgs r0 rs args with
    | some a =>
      simp only [hI] at hres ⊢
      rw [hres]
    | none =>
      simp only [hI] at hres ⊢
      rw [hres]

/-- Witness for C2: a single repo-level root injects both fields into a
call carrying neither. -/
theorem injection_spec_witness :
    ∃ args2,
      RootsMiddleware "github.com" "tools/call"
          (.call ⟨true, "echo_args", .parsed [("state", JValue.str "open")]⟩)
          (.ok [some ⟨"https://github.com/octocat/Hello-World", ""⟩]) =
        .call ⟨true, "echo_args", .parsed args2⟩ ∧
      (lookupArg [("state", JValue.str "open")] "owner" = none →
        lookupArg args2 "owner" = some (.str
          (Root.mk "octocat" "hello-world"
            "https://github.com/octocat/Hello-World" "").Owner)) ∧
      (∀ rr, ([Root.mk "octocat" "hello-world"
            "https://github.com/octocat/Hello-World" ""].filter
            (fun r => decide (r.Repo ≠ ""))) = [rr] →
        lookupArg [("state", JValue.str "open")] "repo" = none →
        lookupArg args2 "repo" = some (.str rr.Repo)) ∧
      ((∀ rr, ([Root.mk "octocat" "hello-world"
            "https://github.com/octocat/Hello-World" ""].filter
            (fun r => decide (r.Repo ≠ ""))) ≠ [rr]) →
        lookupArg args2 "repo" = lookupArg [("state", JValue.str "open")] "repo") ∧
      (∀ k w, lookupArg [("state", JValue.str "open")] k = some w →
        lookupArg args2 k = some w) ∧
      (∀ k, k ≠ "owner" → k ≠ "repo" →
        lookupArg args2 k = lookupArg [("state", JValue.str "open")] k) :=
  (injection_spec "github.com" "echo_args"
    [some ⟨"https://github.com/octocat/Hello-World", ""⟩]
    [("state", JValue.str "open")]
    (Root.mk "octocat" "hello-world" "https://github.com/octocat/Hello-World" "")
    [] rfl).2 (by decide)

theorem strData_append (a b : String) : (a ++ b).data = a.data ++ b.data := by
  cases a; cases b; rfl

theorem strAppend_assoc (a b c : String) : a ++ b ++ c = a ++ (b ++ c) :=
  String.ext (by simp [strData_append])

theorem strAppend_empty (a : String) : a ++ "" = a :=
  String.ext (by simp [strData_append])

/-- `t` occurs in `s` as a contiguous substring. -/
def containsSub (s t : String) : Prop := ∃ pre post, s = pre ++ t ++ post

theorem containsSub_self_mid (a t b : String) : containsSub (a ++ t ++ b) t :=
  ⟨a, b, rfl⟩

theorem containsSub_appendLeft (a s t : String) (h : containsSub s t) :
    containsSub (a ++ s) t := by
  obtain ⟨pre, post, hh⟩ := h
  exact ⟨a ++ pre, post, by rw [hh, strAppend_assoc, strAppend_assoc,
    strAppend_assoc]⟩

theorem containsSub_appendRight (s b t : String) (h : containsSub s t) :
    containsSub (s ++ b) t := by
  obtain ⟨pre, post, hh⟩ := h
  exact ⟨pre, post ++ b, by rw [hh, strAppend_assoc, strAppend_assoc]⟩

theorem containsSub_append_self (a t : String) : containsSub (a ++ t) t :=
  ⟨a, "", by rw [strAppend_assoc, strAppend_empty]⟩

theorem mem_joinComma (l : List String) (x : String) (hx : x ∈ l) :
    containsSub (joinComma l) x := by
  induction l with
  | nil => cases hx
  | cons y ys ih =>
    rcases List.mem_cons.mp hx with rfl | hx'
    · cases ys with
      | nil =>
        exact ⟨"", "", by apply String.ext; simp [joinComma, strData_append]⟩
      | cons z zs =>
        exact ⟨"", ", " ++ joinComma (z :: zs), by
          apply String.ext; simp [joinComma, strData_append]⟩
    · cases ys with
      | nil => cases hx'
      | cons z zs =>
        show containsSub (y ++ ", " ++ joinComma (z :: zs)) x
        exact containsSub_appendLeft _ _ _ (ih hx')

theorem mem_dedupAux (a : String) :
    ∀ (l seen : List String), a ∈ l → a ∈ dedupAux seen l ∨ a ∈ seen := by
  intro l
  induction l with
  | nil => intro seen h; cases h
  | cons x xs ih =>
    intro seen h
    rcases List.mem_cons.mp h with rfl | hx
    · by_cases hs : a ∈ seen
      · exact Or.inr hs
      · left; simp [dedupAux, hs]
    · by_cases hs : x ∈ seen
      · rcases ih seen hx with h1 | h1
        · left; simp [dedupAux, hs, h1]
        · exact Or.inr h1
      · rcases ih (x :: seen) hx with h1 | h1
        · left; simp [dedupAux, hs, h1]
        · rcases List.mem_cons.mp h1 with rfl | h2
          · left; simp [dedupAux, hs]
          · exact Or.inr h2

theorem mem_allowedOwners (ghRoots : List Root) (r : Root) (hr : r ∈ ghRoots) :
    r.Owner ∈ allowedOwners ghRoots := by
  rcases mem_dedupAux r.Owner (ghRoots.map (·.Owner)) []
      (List.mem_map_of_mem _ hr) with h | h
  · exact h
  · cases h

theorem enforceArgs_result_shape (gh : List Root) (args : List (String × JValue))
    (r : CallToolResult) (h : enforceArgs gh args = some r) :
    ∃ msg, r = NewToolResultError msg := by
  unfold enforceArgs at h
  repeat' split at h
  all_goals try (simp only [] at h; repeat' split at h)
  all_goals try exact Option.noConfusion h
  all_goals exact ⟨_, (Option.some.inj h).symm⟩

theorem mem_allowedRepos (ownerLower : String) (S : List Root) (r : Root)
    (hr : r ∈ S) (h1 : r.Owner = ownerLower) (h2 : r.Repo ≠ "") :
    r.Repo ∈ allowedRepos ownerLower S := by
  unfold allowedRepos
  exact List.mem_map_of_mem _ (List.mem_filter.mpr ⟨hr, by simp [h1, h2]⟩)

theorem enforceArgs_owner_deny (gh : List Root) (args : List (String × JValue))
    (owner : String) (hO : lookupArg args "owner" = some (.str owner))
    (hOne : owner ≠ "")
    (hA : (gh.any fun r => decide (r.Owner = goToLower owner)) = false) :
    enforceArgs gh args = some (NewToolResultError (ownerDenyMsg owner gh)) := by
  unfold enforceArgs
  simp only [hO]
  rw [if_neg hOne]
  simp [hA]

theorem enforceArgs_repo_deny (gh : List Root) (args : List (String × JValue))
    (owner repo : String) (hO : lookupArg args "owner" = some (.str owner))
    (hOne : owner ≠ "")
    (hA : (gh.any fun r => decide (r.Owner = goToLower owner)) = true)
    (hRlook : lookupArg args "repo" = some (.str repo)) (hRne : repo ≠ "")
    (hOrg : (gh.any fun r =>
      decide (r.Owner = goToLower owner ∧ r.Repo = "")) = false)
    (hRA : (gh.any fun r =>
      decide (r.Owner = goToLower owner ∧ r.Repo = goToLower repo)) = false) :
    enforceArgs gh args =
      some (NewToolResultError (repoDenyMsg owner repo (goToLower owner) gh)) := by
  unfold enforceArgs
  simp only [hO]
  rw [if_neg hOne]
  simp only [hA, if_true, hRlook]
  rw [if_neg hRne]
  simp only [hOrg, hRA, Bool.false_eq_true, if_false]

/-- Every terminal result of the enforcement middleware is built by
`NewToolResultError`. -/
theorem enforcement_result_shape (host method : String) (request : Request)
    (session : ListRootsOutcome) (r : CallToolResult)
    (h : RootsEnforcementMiddleware host method request session = .result r) :
    ∃ msg, r = NewToolResultError msg := by
  unfold RootsEnforcementMiddleware at h
  repeat' split at h
  all_goals try (simp only [] at h; repeat' split at h)
  all_goals try exact MWOutcome.noConfusion h
  all_goals
    rename_i heq
  all_goals
    obtain ⟨msg, rfl⟩ := enforceArgs_result_shape _ _ _ heq
  all_goals exact ⟨msg, (MWOutcome.result.inj h).symm⟩

/-- C3: every enforcement outcome is either a pass-through or a result
built by `NewToolResultError` — a recoverable tool error paired with a nil
transport error (the embedding has no failure channel at all); an owner
denial carries exactly `ownerDenyMsg`, which quotes the disallowed owner
and every allowed owner; a repo denial carries exactly `repoDenyMsg`,
which quotes the owner/repo pair and every allowed repo for that owner. -/
theorem enforcement_denials :
    (∀ (host method : String) (request : Request) (session : ListRootsOutcome),
      (∃ fwd, RootsEnforcementMiddleware host method request session =
        .next fwd) ∨
      (∃ msg, RootsEnforcementMiddleware host method request session =
        .result (NewToolResultError msg))) ∧
    (∀ (host name : String) (mcpRoots : List (Option MCPRoot))
      (args : List (String × JValue)) (owner : String),
      ParseGitHubRoots mcpRoots host ≠ [] →
      lookupArg args "owner" = some (.str owner) → owner ≠ "" →
      ((ParseGitHubRoots mcpRoots host).any fun r =>
        decide (r.Owner = goToLower owner)) = false →
      RootsEnforcementMiddleware host "tools/call"
          (.call ⟨true, name, .parsed args⟩) (.ok mcpRoots) =
        .result (NewToolResultError
          (ownerDenyMsg owner (ParseGitHubRoots mcpRoots host))) ∧
      containsSub (ownerDenyMsg owner (ParseGitHubRoots mcpRoots host))
        (quoteGo owner) ∧
      (∀ r ∈ ParseGitHubRoots mcpRoots host,
        containsSub (ownerDenyMsg owner (ParseGitHubRoots mcpRoots host))
          (quoteGo r.Owner))) ∧
    (∀ (host name : String) (mcpRoots : List (Option MCPRoot))
      (args : List (String × JValue)) (owner repo : String),
      ParseGitHubRoots mcpRoots host ≠ [] →
      lookupArg args "owner" = some (.str owner) → owner ≠ "" →
      ((ParseGitHubRoots mcpRoots host).any fun r =>
        decide (r.Owner = goToLower owner)) = true →
      lookupArg args "repo" = some (.str repo) → repo ≠ "" →
      ((ParseGitHubRoots mcpRoots host).any fun r =>
        decide (r.Owner = goToLower owner ∧ r.Repo = "")) = false →
      ((ParseGitHubRoots mcpRoots host).any fun r =>
        decide (r.Owner = goToLower owner ∧ r.Repo = goToLower repo)) = false →
      RootsEnforcementMiddleware host "tools/call"
          (.call ⟨true, name, .parsed args⟩) (.ok mcpRoots) =
        .result (NewToolResultError
          (repoDenyMsg owner repo (goToLower owner)
            (ParseGitHubRoots mcpRoots host))) ∧
      containsSub (repoDenyMsg owner repo (goToLower owner)
        (ParseGitHubRoots mcpRoots host)) (quoteGo owner) ∧
      containsSub (repoDenyMsg owner repo (goToLower owner)
        (ParseGitHubRoots mcpRoots host)) (quoteGo repo) ∧
      (∀ r ∈ ParseGitHubRoots mcpRoots host, r.Owner = goToLower owner →
        r.Repo ≠ "" →
        containsSub (repoDenyMsg owner repo (goToLower owner)
          (ParseGitHubRoots mcpRoots host)) (quoteGo r.Repo))) := by
  refine ⟨?_, ?_, ?_⟩
  · intro host method request session
    cases hout : RootsEnforcementMiddleware host method request session with
    | next fwd => exact Or.inl ⟨fwd, rfl⟩
    | result r =>
      obtain ⟨msg, rfl⟩ := enforcement_result_shape _ _ _ _ _ hout
      exact Or.inr ⟨msg, rfl⟩
  · intro host name mcpRoots args owner hS hO hOne hA
    have hm : mcpRoots ≠ [] := fun h => hS (by rw [h]; rfl)
    refine ⟨?_, ?_, ?_⟩
    · rw [enforcement_run host name mcpRoots args hm hS]
      simp only [enforceArgs_owner_deny _ args owner hO hOne hA]
    · unfold ownerDenyMsg
      exact containsSub_appendRight _ _ _ (containsSub_appendRight _ _ _
        (containsSub_appendRight _ _ _ (containsSub_append_self _ _)))
    · intro r hr
      unfold ownerDenyMsg
      apply containsSub_appendRight
      apply containsSub_appendLeft
      exact mem_joinComma _ _
        (List.mem_map_of_mem _ (mem_allowedOwners _ r hr))
  · intro host name mcpRoots args owner repo hS hO hOne hA hRlook hRne hOrg hRA
    have hm : mcpRoots ≠ [] := fun h => hS (by rw [h]; rfl)
    refine ⟨?_, ?_, ?_, ?_⟩
    · rw [enforcement_run host name mcpRoots args hm hS]
      simp only [enforceArgs_repo_deny _ args owner repo hO hOne hA hRlook
        hRne hOrg hRA]
    · unfold repoDenyMsg
      exact containsSub_appendRight _ _ _ (containsSub_appendRight _ _ _
        (containsSub_appendRight _ _ _ (containsSub_appendRight _ _ _
          (containsSub_appendRight _ _ _ (containsSub_appendRight _ _ _
            (containsSub_appendRight _ _ _ (containsSub_append_self _ _)))))))
    · unfold repoDenyMsg
      exact containsSub_appendRight _ _ _ (containsSub_appendRight _ _ _
        (containsSub_appendRight _ _ _ (containsSub_appendRight _ _ _
          (containsSub_appendRight _ _ _ (containsSub_append_self _ _)))))
    · intro r hr hrOwn hrRepo
      unfold repoDenyMsg
      apply containsSub_appendRight
      apply containsSub_appendLeft
      exact mem_joinComma _ _ (List.mem_map_of_mem _
        (mem_allowedRepos (goToLower owner) _ r hr hrOwn hrRepo))

/-- Witness for C3 at a concrete owner denial. -/
theorem enforcement_denials_witness :
    RootsEnforcementMiddleware "github.com" "tools/call"
        (.call ⟨true, "echo_args", .parsed [("owner", JValue.str "evil-org")]⟩)
        (.ok [some ⟨"https://github.com/octocat/Hello-World", ""⟩]) =
      .result (NewToolResultError
        (ownerDenyMsg "evil-org"
          (ParseGitHubRoots [some ⟨"https://github.com/octocat/Hello-World", ""⟩]
            "github.com"))) ∧
    containsSub (ownerDenyMsg "evil-org"
      (ParseGitHubRoots [some ⟨"https://github.com/octocat/Hello-World", ""⟩]
        "github.com")) (quoteGo "evil-org") ∧
    (∀ r ∈ ParseGitHubRoots [some ⟨"https://github.com/octocat/Hello-World", ""⟩]
        "github.com",
      containsSub (ownerDenyMsg "evil-org"
        (ParseGitHubRoots [some ⟨"https://github.com/octocat/Hello-World", ""⟩]
          "github.com")) (quoteGo r.Owner)) :=
  enforcement_denials.2.1 "github.com" "echo_args"
    [some ⟨"https://github.com/octocat/Hello-World", ""⟩]
    [("owner", JValue.str "evil-org")] "evil-org"
    (by decide) rfl (by decide) (by decide)

theorem dropPre_append (a b : List Char) : dropPre a (a ++ b) = some b := by
  induction a with
  | nil => rfl
  | cons c a' ih => simp [dropPre, ih]

theorem breakScheme_append (a b : List Char) (ha : ':' ∉ a) :
    breakScheme (a ++ ':' :: '/' :: '/' :: b) = some (a, b) := by
  induction a with
  | nil => simp [breakScheme]
  | cons c a' ih =>
    have hc : c ≠ ':' := fun h => ha (h ▸ List.mem_cons_self _ _)
    have ha' : ':' ∉ a' := fun h => ha (List.mem_cons_of_mem _ h)
    rw [List.cons_append]
    simp only [breakScheme, ih ha']
    rw [if_neg (fun hh => hc hh.1)]

theorem takeWhile_slash (a b : List Char) (ha : '/' ∉ a) :
    (a ++ '/' :: b).takeWhile (fun c => decide (c ≠ '/')) = a := by
  induction a with
  | nil =>
    rw [List.nil_append, List.takeWhile_cons]
    simp
  | cons c a' ih =>
    have hc : c ≠ '/' := fun h => ha (h ▸ List.mem_cons_self _ _)
    have ha' : '/' ∉ a' := fun h => ha (List.mem_cons_of_mem _ h)
    rw [List.cons_append, List.takeWhile_cons]
    rw [if_pos (by simpa using hc), ih ha']

theorem dropWhile_slash (a b : List Char) (ha : '/' ∉ a) :
    (a ++ '/' :: b).dropWhile (fun c => decide (c ≠ '/')) = '/' :: b := by
  induction a with
  | nil =>
    rw [List.nil_append, List.dropWhile_cons]
    simp
  | cons c a' ih =>
    have hc : c ≠ '/' := fun h => ha (h ▸ List.mem_cons_self _ _)
    have ha' : '/' ∉ a' := fun h => ha (List.mem_cons_of_mem _ h)
    rw [List.cons_append, List.dropWhile_cons]
    rw [if_pos (by simpa using hc), ih ha']

theorem splitChars_ne_nil (sep : Char) (l : List Char) : splitChars sep l ≠ [] := by
  cases l with
  | nil => simp [splitChars]
  | cons c cs =>
    simp only [splitChars]
    cases h : splitChars sep cs with
    | nil => simp
    | cons x xs => by_cases hc : c = sep <;> simp [hc]

theorem splitChars_no_sep (sep : Char) (l : List Char) (h : sep ∉ l) :
    splitChars sep l = [l] := by
  induction l with
  | nil => rfl
  | cons c cs ih =>
    have hc : c ≠ sep := fun hh => h (hh ▸ List.mem_cons_self _ _)
    have h' : sep ∉ cs := fun hh => h (List.mem_cons_of_mem _ hh)
    simp [splitChars, ih h', hc]

theorem splitChars_append (sep : Char) (a b : List Char) (ha : sep ∉ a) :
    splitChars sep (a ++ sep :: b) = a :: splitChars sep b := by
  induction a with
  | nil =>
    rw [List.nil_append]
    show splitChars sep (sep :: b) = [] :: splitChars sep b
    cases h : splitChars sep b with
    | nil => exact absurd h (splitChars_ne_nil sep b)
    | cons l ls => simp [splitChars, h]
  | cons c a' ih =>
    have hc : c ≠ sep := fun h => ha (h ▸ List.mem_cons_self _ _)
    have ha' : sep ∉ a' := fun h => ha (List.mem_cons_of_mem _ h)
    rw [List.cons_append]
    simp only [splitChars, ih ha']
    simp [hc]

theorem goTrimPre_slashHead (l : List Char) : goTrimPre ⟨'/' :: l⟩ "/" = ⟨l⟩ := rfl

theorem goTrimSuf_strip (a suf : String) :
    goTrimSuf ⟨a.data ++ suf.data⟩ suf = a := by
  unfold goTrimSuf
  have h : (⟨a.data ++ suf.data⟩ : String).data.reverse =
      suf.data.reverse ++ a.data.reverse := by simp
  rw [h, dropPre_append]
  exact String.ext (by simp)

theorem goTrimSuf_keep (l : List Char) (c : Char) (rest : List Char)
    (hrev : l.reverse = c :: rest) (hc : c ≠ '/') :
    goTrimSuf ⟨l⟩ "/" = ⟨l⟩ := by
  unfold goTrimSuf
  rw [show ("/" : String).data.reverse = ['/'] from rfl]
  show (match dropPre ['/'] (⟨l⟩ : String).data.reverse with
        | some rest => (⟨rest.reverse⟩ : String)
        | none => ⟨l⟩) = ⟨l⟩
  rw [show (⟨l⟩ : String).data = l from rfl, hrev]
  simp [dropPre, hc]

theorem urlParse_gen (scheme hostStr : String) (pathTail : List Char)
    (hs : ':' ∉ scheme.data) (hsne : scheme.data ≠ [])
    (hh : '/' ∉ hostStr.data) :
    urlParse (scheme ++ "://" ++ hostStr ++ ⟨'/' :: pathTail⟩) =
      some ⟨⟨scheme.data.map Char.toLower⟩, hostStr, ⟨'/' :: pathTail⟩⟩ := by
  unfold urlParse
  have hdata : (scheme ++ "://" ++ hostStr ++ (⟨'/' :: pathTail⟩ : String)).data =
      scheme.data ++ ':' :: '/' :: '/' :: (hostStr.data ++ '/' :: pathTail) := by
    rw [strData_append, strData_append, strData_append]
    rw [show ("://" : String).data = [':', '/', '/'] from rfl]
    simp
  rw [hdata]
  simp only [breakScheme_append _ _ hs]
  rw [if_neg hsne]
  rw [takeWhile_slash _ _ hh, dropWhile_slash _ _ hh]

theorem ne_snoc_slash (a : List Char) (x : Char) (hx : x ≠ '/') :
    ∀ rest, a ++ [x] ≠ rest ++ ['/'] := by
  intro rest hcon
  have := congrArg List.getLast? hcon
  rw [List.getLast?_concat, List.getLast?_concat] at this
  exact hx (Option.some.inj this)

theorem goTrimSuf_keep' (l : List Char) (hne : l ≠ [])
    (h : ∀ rest, l ≠ rest ++ ['/']) : goTrimSuf ⟨l⟩ "/" = ⟨l⟩ := by
  cases hrev : l.reverse with
  | nil => exact absurd (by simpa using congrArg List.reverse hrev) hne
  | cons c crest =>
    have hl : l = crest.reverse ++ [c] := by
      simpa using congrArg List.reverse hrev
    exact goTrimSuf_keep l c crest hrev fun hcon => h crest.reverse (hcon ▸ hl)

/-- The path-processing tail of `ParseGitHubRootURI` (after the scheme and
host guards and the leading-slash trim), factored out for the generator
lemmas; `p` is the path without its leading slash. -/
def parsePath (p : String) : Except String (String × String) :=
  let path := goTrimSuf p "/"
  if path = "" then .error "URI has no path"
  else
    match splitN3 path '/' with
    | [] => .error "URI has no path"
    | seg0 :: segRest =>
      if seg0 = "" then .error "URI has no path"
      else
        .ok (goToLower seg0,
          match segRest with
          | seg1 :: _ =>
            if seg1 ≠ "" then goToLower (goTrimSuf seg1 ".git") else ""
          | [] => "")

theorem ParseGitHubRootURI_gen (scheme hostStr host : String)
    (pathTail : List Char)
    (hsch : scheme = "https" ∨ scheme = "http" ∨ scheme = "git")
    (hhost : goEqualFold hostStr (if host = "" then "github.com" else host) = true)
    (hh : '/' ∉ hostStr.data) :
    ParseGitHubRootURI (scheme ++ "://" ++ hostStr ++ ⟨'/' :: pathTail⟩) host =
      parsePath ⟨pathTail⟩ := by
  have hs : ':' ∉ scheme.data := by
    rcases hsch with rfl | rfl | rfl <;> decide
  have hsne : scheme.data ≠ [] := by
    rcases hsch with rfl | rfl | rfl <;> decide
  have hlow : (⟨scheme.data.map Char.toLower⟩ : String) = scheme := by
    rcases hsch with rfl | rfl | rfl <;> decide
  unfold ParseGitHubRootURI
  simp only [urlParse_gen scheme hostStr pathTail hs hsne hh, hlow]
  rw [if_pos hsch, if_pos hhost, goTrimPre_slashHead]
  rfl

/-- C4: the root-URI parser accepts only the schemes https, http and git
with a host case-insensitively equal to the expected host (defaulting to
`github.com`) and a non-empty path; `/Owner/Repo.git` yields the
lowercased pair with the `.git` suffix stripped, further path segments are
ignored, and a single-segment `/Owner` yields the organization-level pair
`(lower Owner, "")`. -/
theorem parse_root_uri_spec :
    (∀ (uri host o r : String),
      ParseGitHubRootURI uri host = .ok (o, r) →
      ∃ u, urlParse uri = some u ∧
        (u.scheme = "https" ∨ u.scheme = "http" ∨ u.scheme = "git") ∧
        goEqualFold u.host (if host = "" then "github.com" else host) = true ∧
        goTrimSuf (goTrimPre u.path "/") "/" ≠ "") ∧
    (∀ (scheme hostStr host owner repoW : String),
      (scheme = "https" ∨ scheme = "http" ∨ scheme = "git") →
      goEqualFold hostStr (if host = "" then "github.com" else host) = true →
      '/' ∉ hostStr.data → owner.data ≠ [] → '/' ∉ owner.data →
      repoW.data ≠ [] → '/' ∉ repoW.data →
      ParseGitHubRootURI
          (scheme ++ "://" ++ hostStr ++ "/" ++ owner ++ "/" ++ repoW ++ ".git")
          host =
        .ok (goToLower owner, goToLower repoW)) ∧
    (∀ (scheme hostStr host owner repoW extra : String),
      (scheme = "https" ∨ scheme = "http" ∨ scheme = "git") →
      goEqualFold hostStr (if host = "" then "github.com" else host) = true →
      '/' ∉ hostStr.data → owner.data ≠ [] → '/' ∉ owner.data →
      repoW.data ≠ [] → '/' ∉ repoW.data →
      extra.data ≠ [] → (∀ rest, extra.data ≠ rest ++ ['/']) →
      ParseGitHubRootURI
          (scheme ++ "://" ++ hostStr ++ "/" ++ owner ++ "/" ++ repoW ++ ".git"
            ++ "/" ++ extra) host =
        .ok (goToLower owner, goToLower repoW)) ∧
    (∀ (scheme hostStr host owner : String),
      (scheme = "https" ∨ scheme = "http" ∨ scheme = "git") →
      goEqualFold hostStr (if host = "" then "github.com" else host) = true →
      '/' ∉ hostStr.data → owner.data ≠ [] → '/' ∉ owner.data →
      ParseGitHubRootURI (scheme ++ "://" ++ hostStr ++ "/" ++ owner) host =
        .ok (goToLower owner, "")) := by
  refine ⟨?_, ?_, ?_, ?_⟩
  · intro uri host o r h
    cases hurl : urlParse uri with
    | none => simp [ParseGitHubRootURI, hurl] at h
    | some parsed =>
      simp only [ParseGitHubRootURI, hurl] at h
      by_cases hsch : parsed.scheme = "https" ∨ parsed.scheme = "http" ∨
          parsed.scheme = "git"
      · rw [if_pos hsch] at h
        by_cases hhost : goEqualFold parsed.host
            (if host = "" then "github.com" else host) = true
        · rw [if_pos hhost] at h
          by_cases hpath : goTrimSuf (goTrimPre parsed.path "/") "/" = ""
          · rw [if_pos hpath] at h; exact Except.noConfusion h
          · exact ⟨parsed, rfl, hsch, hhost, hpath⟩
        · rw [if_neg hhost] at h; exact Except.noConfusion h
      · rw [if_neg hsch] at h; exact Except.noConfusion h
  · intro scheme hostStr host owner repoW hsch hhost hh howner hos hrepo hrs
    have huri : scheme ++ "://" ++ hostStr ++ "/" ++ owner ++ "/" ++ repoW
        ++ ".git" = scheme ++ "://" ++ hostStr ++
        ⟨'/' :: (owner.data ++ '/' :: (repoW.data ++ (".git" : String).data))⟩ := by
      apply String.ext
      simp [strData_append]
    rw [huri, ParseGitHubRootURI_gen scheme hostStr host _ hsch hhost hh]
    unfold parsePath
    have htail : (owner.data ++ '/' :: (repoW.data ++ (".git" : String).data)) =
        (owner.data ++ '/' :: repoW.data) ++ ['.', 'g', 'i', 't'] := by
      rw [show (".git" : String).data = ['.', 'g', 'i', 't'] from rfl]
      simp
    have hkeep : goTrimSuf
        (⟨owner.data ++ '/' :: (repoW.data ++ (".git" : String).data)⟩ : String)
        "/" = ⟨owner.data ++ '/' :: (repoW.data ++ (".git" : String).data)⟩ := by
      apply goTrimSuf_keep _ 't'
        ('i' :: 'g' :: '.' :: (owner.data ++ '/' :: repoW.data).reverse)
      · show (owner.data ++ '/' :: (repoW.data ++ (".git" : String).data)).reverse
          = _
        rw [htail]
        simp
      · decide
    rw [hkeep]
    have hne0 : (⟨owner.data ++ '/' :: (repoW.data ++ (".git" : String).data)⟩ :
        String) ≠ "" := by
      intro hcon
      have := congrArg String.data hcon
      simp at this
    rw [if_neg hne0]
    have hnosl : '/' ∉ repoW.data ++ (".git" : String).data := by
      intro hmem
      rcases List.mem_append.mp hmem with hmem | hmem
      · exact hrs hmem
      · revert hmem; decide
    have hsegs : splitN3
        (⟨owner.data ++ '/' :: (repoW.data ++ (".git" : String).data)⟩ : String)
        '/' = [owner, ⟨repoW.data ++ (".git" : String).data⟩] := by
      unfold splitN3
      rw [show ((⟨owner.data ++ '/' :: (repoW.data ++ (".git" : String).data)⟩ :
        String)).data = owner.data ++ '/' :: (repoW.data ++
        (".git" : String).data) from rfl]
      rw [splitChars_append _ _ _ hos, splitChars_no_sep _ _ hnosl]
    simp only [hsegs]
    have hone : owner ≠ "" := by
      intro hcon; exact howner (congrArg String.data hcon)
    rw [if_neg hone]
    have hseg1 : (⟨repoW.data ++ (".git" : String).data⟩ : String) ≠ "" := by
      intro hcon
      have := congrArg String.data hcon
      simp only at this
      exact hrepo (List.append_eq_nil.mp this).1
    rw [if_pos hseg1]
    have hstrip : goTrimSuf (⟨repoW.data ++ (".git" : String).data⟩ : String)
        ".git" = repoW := goTrimSuf_strip repoW ".git"
    rw [hstrip]
  · intro scheme hostStr host owner repoW extra hsch hhost hh howner hos hrepo
      hrs hex hexsl
    obtain ⟨c, crest, hrev, hc⟩ : ∃ c crest, extra.data.reverse = c :: crest ∧
        c ≠ '/' := by
      cases hrevC : extra.data.reverse with
      | nil => exact absurd (by simpa using congrArg List.reverse hrevC) hex
      | cons c crest =>
        refine ⟨c, crest, rfl, ?_⟩
        intro rfl1
        apply hexsl crest.reverse
        have := congrArg List.reverse hrevC
        simpa [rfl1] using this
    have huri : scheme ++ "://" ++ hostStr ++ "/" ++ owner ++ "/" ++ repoW
        ++ ".git" ++ "/" ++ extra = scheme ++ "://" ++ hostStr ++
        ⟨'/' :: (owner.data ++ '/' :: ((repoW.data ++ (".git" : String).data)
          ++ '/' :: extra.data))⟩ := by
      apply String.ext
      simp [strData_append]
    rw [huri, ParseGitHubRootURI_gen scheme hostStr host _ hsch hhost hh]
    unfold parsePath
    have hextra : extra.data = crest.reverse ++ [c] := by
      simpa using congrArg List.reverse hrev
    have hkeep : goTrimSuf (⟨owner.data ++ '/' :: ((repoW.data ++
        (".git" : String).data) ++ '/' :: extra.data)⟩ : String) "/" =
        ⟨owner.data ++ '/' :: ((repoW.data ++ (".git" : String).data)
          ++ '/' :: extra.data)⟩ := by
      apply goTrimSuf_keep' _ (by simp)
      rw [show owner.data ++ '/' :: ((repoW.data ++ (".git" : String).data)
        ++ '/' :: extra.data) = (owner.data ++ '/' :: ((repoW.data ++
        (".git" : String).data) ++ '/' :: crest.reverse)) ++ [c] from by
          rw [hextra]; simp]
      exact ne_snoc_slash _ c hc
    rw [hkeep]
    have hne0 : (⟨owner.data ++ '/' :: ((repoW.data ++ (".git" : String).data)
        ++ '/' :: extra.data)⟩ : String) ≠ "" := by
      intro hcon
      have := congrArg String.data hcon
      simp at this
    rw [if_neg hne0]
    have hnosl : '/' ∉ repoW.data ++ (".git" : String).data := by
      intro hmem
      rcases List.mem_append.mp hmem with hmem | hmem
      · exact hrs hmem
      · revert hmem; decide
    obtain ⟨e, es, hsplitE⟩ : ∃ e es, splitChars '/' extra.data = e :: es := by
      cases hsp : splitChars '/' extra.data with
      | nil => exact absurd hsp (splitChars_ne_nil _ _)
      | cons e es => exact ⟨e, es, rfl⟩
    have hsegs : splitN3 (⟨owner.data ++ '/' :: ((repoW.data ++
        (".git" : String).data) ++ '/' :: extra.data)⟩ : String) '/' =
        [owner, ⟨repoW.data ++ (".git" : String).data⟩,
          ⟨List.intercalate ['/'] (e :: es)⟩] := by
      unfold splitN3
      rw [show ((⟨owner.data ++ '/' :: ((repoW.data ++ (".git" : String).data)
        ++ '/' :: extra.data)⟩ : String)).data = owner.data ++ '/' ::
        ((repoW.data ++ (".git" : String).data) ++ '/' :: extra.data) from rfl]
      rw [splitChars_append _ _ _ hos, splitChars_append _ _ _ hnosl, hsplitE]
    simp only [hsegs]
    have hone : owner ≠ "" := by
      intro hcon; exact howner (congrArg String.data hcon)
    rw [if_neg hone]
    have hseg1 : (⟨repoW.data ++ (".git" : String).data⟩ : String) ≠ "" := by
      intro hcon
      have := congrArg String.data hcon
      simp only at this
      exact hrepo (List.append_eq_nil.mp this).1
    rw [if_pos hseg1]
    rw [goTrimSuf_strip repoW ".git"]
  · intro scheme hostStr host owner hsch hhost hh howner hos
    obtain ⟨c, crest, hrev, hc⟩ : ∃ c crest, owner.data.reverse = c :: crest ∧
        c ≠ '/' := by
      cases hrevC : owner.data.reverse with
      | nil => exact absurd (by simpa using congrArg List.reverse hrevC) howner
      | cons c crest =>
        refine ⟨c, crest, rfl, ?_⟩
        intro rfl1
        apply hos
        rw [rfl1] at hrevC
        have : '/' ∈ owner.data.reverse := by rw [hrevC]; exact List.mem_cons_self _ _
        simpa using this
    have huri : scheme ++ "://" ++ hostStr ++ "/" ++ owner =
        scheme ++ "://" ++ hostStr ++ ⟨'/' :: owner.data⟩ := by
      apply String.ext
      simp [strData_append]
    rw [huri, ParseGitHubRootURI_gen scheme hostStr host _ hsch hhost hh]
    unfold parsePath
    have hkeep : goTrimSuf (⟨owner.data⟩ : String) "/" = ⟨owner.data⟩ :=
      goTrimSuf_keep _ c crest hrev hc
    rw [hkeep]
    have hne0 : (⟨owner.data⟩ : String) ≠ "" := by
      intro hcon
      exact howner (congrArg String.data hcon)
    rw [if_neg hne0]
    have hsegs : splitN3 (⟨owner.data⟩ : String) '/' = [owner] := by
      unfold splitN3
      rw [show ((⟨owner.data⟩ : String)).data = owner.data from rfl]
      rw [splitChars_no_sep _ _ hos]
    simp only [hsegs]
    have hone : owner ≠ "" := by
      intro hcon; exact howner (congrArg String.data hcon)
    rw [if_neg hone]

/-- Witness for C4: the repo-level generator at a mixed-case URI. -/
theorem parse_root_uri_spec_witness :
    ParseGitHubRootURI
        ("https" ++ "://" ++ "GitHub.com" ++ "/" ++ "OctoCat" ++ "/" ++
          "My-Repo" ++ ".git") "github.com" =
      .ok (goToLower "OctoCat", goToLower "My-Repo") :=
  parse_root_uri_spec.2.1 "https" "GitHub.com" "github.com" "OctoCat" "My-Repo"
    (Or.inl rfl) (by decide) (by decide) (by decide) (by decide) (by decide)
    (by decide)

/-- One `jsonschema.Schema` object, as a cell on an explicit heap: the
fields `MakeOwnerRepoOptional` reads or writes, plus `extraFields` standing
in for the many schema fields the transform never touches.  `properties`
maps a property name to a possibly-nil pointer (`Option Nat`) to another
schema cell; a `none` properties field models a nil Properties map. -/
structure SchemaObj where
  stype : String
  description : String
  required : List String
  properties : Option (List (String × Option Nat))
  extraFields : List (String × String)
deriving DecidableEq, Repr

/-- The explicit store of schema objects (Go pointers become indices). -/
abbrev Heap := List SchemaObj

/-- An `inventory.ServerTool`: its name, its InputSchema (a pointer when
the `any` holds a `*jsonschema.Schema`, `none` when nil or another type),
and opaque remaining fields. -/
structure ServerTool where
  name : String
  inputSchema : Option Nat
  extraFields : List (String × String)
deriving DecidableEq, Repr

/-- The advisory text appended to the owner/repo descriptions
(src/unnamed/part_005, lines 140 and 146). -/
def advisorySuffix : String := " (optional when roots are configured)"

/-- Map update `m[k] = v` on the association-list model of a Go map. -/
def updateAssoc (l : List (String × Option Nat)) (k : String) (v : Option Nat) :
    List (String × Option Nat) :=
  l.map fun pr => if pr.1 = k then (k, v) else pr

/-- The required-list rewrite (src/unnamed/part_005, lines 123-130): keep
every entry other than `owner` and `repo`, in order. -/
def dropOwnerRepo (l : List String) : List String :=
  l.filter fun rq => decide (rq ≠ "owner" ∧ rq ≠ "repo")

/-- The copy-on-write step for one property key (src/unnamed/part_005,
lines 138-147): when the key maps to a non-nil pointer, allocate a copy of
the pointed-to schema with the advisory suffix appended to its description
and redirect the key to the copy. -/
def copyProp (h : Heap) (props : List (String × Option Nat)) (key : String) :
    Heap × List (String × Option Nat) :=
  match props.find? fun pr => decide (pr.1 = key) with
  | some (_, some q) =>
    match h[q]? with
    | some prop =>
      (h ++ [{ prop with description := prop.description ++ advisorySuffix }],
       updateAssoc props key (some h.length))
    | none => (h, props)
  | _ => (h, props)

/-- One iteration of the `MakeOwnerRepoOptional` loop
(src/unnamed/part_005, lines 105-153) on one tool, with the heap explicit:
every write targets a freshly appended cell; existing cells are never
written. -/
def MakeOwnerRepoOptionalOne (h : Heap) (tool : ServerTool) :
    Heap × ServerTool :=
  match tool.inputSchema with
  | none => (h, tool)
  | some p =>
    match h[p]? with
    | none => (h, tool)
    | some schema =>
      if "owner" ∈ schema.required ∨ "repo" ∈ schema.required then
        let newRequired := dropOwnerRepo schema.required
        match schema.properties with
        | none =>
          (h ++ [{ schema with required := newRequired }],
           { tool with inputSchema := some h.length })
        | some props =>
          let s1 := copyProp h props "owner"
          let s2 := copyProp s1.1 s1.2 "repo"
          let newSchema :=
            { schema with required := newRequired, properties := some s2.2 }
          (s2.1 ++ [newSchema], { tool with inputSchema := some s2.1.length })
      else (h, tool)

/-- Embedding of `MakeOwnerRepoOptional` (src/unnamed/part_005, lines
103-155) over the explicit heap, processing the tools in order. -/
def MakeOwnerRepoOptional : List ServerTool → Heap → List ServerTool × Heap
  | [], h => ([], h)
  | t :: ts, h =>
    let s1 := MakeOwnerRepoOptionalOne h t
    let s2 := MakeOwnerRepoOptional ts s1.1
    (s1.2 :: s2.1, s2.2)

/-- What the transform guarantees for the properties map of one rewritten
schema, relating the input heap `h` to the output heap `h₂`. -/
def propsFact (h h₂ : Heap)
    (props props' : Option (List (String × Option Nat))) : Prop :=
  match props with
  | none => props' = none
  | some ps =>
    ∃ ps', props' = some ps' ∧
      ps'.map Prod.fst = ps.map Prod.fst ∧
      (∀ k q, (k, q) ∈ ps → k ≠ "owner" → k ≠ "repo" → (k, q) ∈ ps') ∧
      (∀ q prop,
        ps.find? (fun pr => decide (pr.1 = "owner")) = some ("owner", some q) →
        h[q]? = some prop →
        ∃ q', ps'.find? (fun pr => decide (pr.1 = "owner")) =
            some ("owner", some q') ∧
          h₂[q']? = some { prop with
            description := prop.description ++ advisorySuffix }) ∧
      (∀ q prop,
        ps.find? (fun pr => decide (pr.1 = "repo")) = some ("repo", some q) →
        h[q]? = some prop →
        ∃ q', ps'.find? (fun pr => decide (pr.1 = "repo")) =
            some ("repo", some q') ∧
          h₂[q']? = some { prop with
            description := prop.description ++ advisorySuffix })

/-- What the transform guarantees for one tool: untouched when its schema
requires neither owner nor repo (or is not a schema pointer); otherwise a
fresh schema whose required list is the old one with exactly `owner` and
`repo` filtered out, all other schema fields unchanged, and the properties
map rewritten per `propsFact`. -/
def perToolFact (h h₂ : Heap) (t t' : ServerTool) : Prop :=
  match t.inputSchema.bind fun q => h[q]? with
  | none => t' = t
  | some schema =>
    if "owner" ∈ schema.required ∨ "repo" ∈ schema.required then
      t'.name = t.name ∧ t'.extraFields = t.extraFields ∧
      ∃ p' schema', t'.inputSchema = some p' ∧ h₂[p']? = some schema' ∧
        schema'.required = dropOwnerRepo schema.required ∧
        schema'.stype = schema.stype ∧
        schema'.description = schema.description ∧
        schema'.extraFields = schema.extraFields ∧
        propsFact h h₂ schema.properties schema'.properties
    else t' = t

theorem updateAssoc_keys (l : List (String × Option Nat)) (k : String)
    (v : Option Nat) : (updateAssoc l k v).map Prod.fst = l.map Prod.fst := by
  unfold updateAssoc
  rw [List.map_map]
  apply List.map_congr_left
  intro pr _
  by_cases hk : pr.1 = k <;> simp [hk]

theorem updateAssoc_mem_ne (l : List (String × Option Nat)) (k : String)
    (v : Option Nat) (k' : String) (q : Option Nat) (hmem : (k', q) ∈ l)
    (hne : k' ≠ k) : (k', q) ∈ updateAssoc l k v := by
  unfold updateAssoc
  refine List.mem_map.mpr ⟨(k', q), hmem, ?_⟩
  simp [hne]

theorem updateAssoc_find_ne (l : List (String × Option Nat)) (k : String)
    (v : Option Nat) (k' : String) (hne : k' ≠ k) :
    (updateAssoc l k v).find? (fun pr => decide (pr.1 = k')) =
      l.find? (fun pr => decide (pr.1 = k')) := by
  induction l with
  | nil => rfl
  | cons pr l' ih =>
    unfold updateAssoc at ih ⊢
    by_cases hk : pr.1 = k
    · rw [List.map_cons, if_pos hk, List.find?_cons, List.find?_cons]
      rw [show (decide ((k, v).1 = k') : Bool) = false from
        decide_eq_false fun hh => hne hh.symm]
      rw [show (decide (pr.1 = k') : Bool) = false from by
        rw [hk]; exact decide_eq_false fun hh => hne hh.symm]
      exact ih
    · rw [List.map_cons, if_neg hk, List.find?_cons, List.find?_cons]
      cases hpk : (decide (pr.1 = k') : Bool) with
      | true => rfl
      | false => exact ih

theorem updateAssoc_find_self (l : List (String × Option Nat)) (k : String)
    (v : Option Nat) (q0 : Option Nat)
    (hfind : l.find? (fun pr => decide (pr.1 = k)) = some (k, q0)) :
    (updateAssoc l k v).find? (fun pr => decide (pr.1 = k)) = some (k, v) := by
  induction l with
  | nil => cases hfind
  | cons pr l' ih =>
    unfold updateAssoc at ih ⊢
    rw [List.find?_cons] at hfind
    cases hpk : (decide (pr.1 = k) : Bool) with
    | true =>
      have hk : pr.1 = k := of_decide_eq_true hpk
      rw [List.map_cons, if_pos hk, List.find?_cons]
      rw [show (decide ((k, v).1 = k) : Bool) = true by simp]
    | false =>
      have hk : pr.1 ≠ k := of_decide_eq_false hpk
      rw [hpk] at hfind
      rw [List.map_cons, if_neg hk, List.find?_cons, hpk]
      exact ih hfind

theorem getElem?_extend (h : Heap) (ext : Heap) (q : Nat) (x : SchemaObj)
    (hq : h[q]? = some x) : (h ++ ext)[q]? = some x := by
  rw [List.getElem?_append_left (List.getElem?_eq_some.mp hq).1]
  exact hq

theorem copyProp_heap (h : Heap) (props : List (String × Option Nat))
    (key : String) : ∃ ext, (copyProp h props key).1 = h ++ ext := by
  unfold copyProp
  repeat' split
  all_goals first
    | exact ⟨_, rfl⟩
    | exact ⟨[], (List.append_nil h).symm⟩

theorem copyProp_keys (h : Heap) (props : List (String × Option Nat))
    (key : String) : (copyProp h props key).2.map Prod.fst = props.map Prod.fst := by
  unfold copyProp
  repeat' split
  all_goals first
    | rfl
    | exact updateAssoc_keys _ _ _

theorem copyProp_mem_ne (h : Heap) (props : List (String × Option Nat))
    (key k' : String) (q : Option Nat) (hmem : (k', q) ∈ props)
    (hne : k' ≠ key) : (k', q) ∈ (copyProp h props key).2 := by
  unfold copyProp
  repeat' split
  all_goals first
    | exact hmem
    | exact updateAssoc_mem_ne _ _ _ _ _ hmem hne

theorem copyProp_find_ne (h : Heap) (props : List (String × Option Nat))
    (key k' : String) (hne : k' ≠ key) :
    (copyProp h props key).2.find? (fun pr => decide (pr.1 = k')) =
      props.find? (fun pr => decide (pr.1 = k')) := by
  unfold copyProp
  repeat' split
  all_goals first
    | rfl
    | exact updateAssoc_find_ne _ _ _ _ hne

theorem copyProp_self (h : Heap) (props : List (String × Option Nat))
    (key : String) (q : Nat) (prop : SchemaObj)
    (hfind : props.find? (fun pr => decide (pr.1 = key)) = some (key, some q))
    (hq : h[q]? = some prop) :
    (copyProp h props key).2.find? (fun pr => decide (pr.1 = key)) =
      some (key, some h.length) ∧
    (copyProp h props key).1[h.length]? =
      some { prop with description := prop.description ++ advisorySuffix } := by
  unfold copyProp
  rw [hfind]
  simp only [hq]
  constructor
  · exact updateAssoc_find_self _ _ _ _ hfind
  · rw [List.getElem?_concat_length]

theorem MakeOwnerRepoOptionalOne_spec (h : Heap) (t : ServerTool) :
    (∃ ext, (MakeOwnerRepoOptionalOne h t).1 = h ++ ext) ∧
    perToolFact h (MakeOwnerRepoOptionalOne h t).1 t
      (MakeOwnerRepoOptionalOne h t).2 := by
  cases hq : t.inputSchema with
  | none =>
    have hOne : MakeOwnerRepoOptionalOne h t = (h, t) := by
      unfold MakeOwnerRepoOptionalOne
      simp only [hq]
    rw [hOne]
    refine ⟨⟨[], by simp⟩, ?_⟩
    unfold perToolFact
    simp only [hq, Option.none_bind]
  | some p =>
    cases hderef : h[p]? with
    | none =>
      have hOne : MakeOwnerRepoOptionalOne h t = (h, t) := by
        unfold MakeOwnerRepoOptionalOne
        simp only [hq, hderef]
      rw [hOne]
      refine ⟨⟨[], by simp⟩, ?_⟩
      unfold perToolFact
      simp only [hq, Option.some_bind, hderef]
    | some schema =>
      by_cases hreq : "owner" ∈ schema.required ∨ "repo" ∈ schema.required
      · cases hprops : schema.properties with
        | none =>
          have hOne : MakeOwnerRepoOptionalOne h t =
              (h ++ [{ schema with required := dropOwnerRepo schema.required }],
               { t with inputSchema := some h.length }) := by
            unfold MakeOwnerRepoOptionalOne
            simp only [hq, hderef]
            rw [if_pos hreq]
            simp only [hprops]
          rw [hOne]
          refine ⟨⟨_, rfl⟩, ?_⟩
          unfold perToolFact
          simp only [hq, Option.some_bind, hderef]
          rw [if_pos hreq]
          refine ⟨by trivial, by trivial, h.length,
            { schema with required := dropOwnerRepo schema.required },
            by trivial, List.getElem?_concat_length _ _, by trivial, by trivial,
            by trivial, by trivial, ?_⟩
          unfold propsFact
          simp only [hprops]
        | some props =>
          have hOne : MakeOwnerRepoOptionalOne h t =
              ((copyProp (copyProp h props "owner").1
                  (copyProp h props "owner").2 "repo").1 ++
                [{ schema with
                    required := dropOwnerRepo schema.required,
                    properties := some (copyProp (copyProp h props "owner").1
                      (copyProp h props "owner").2 "repo").2 }],
               { t with inputSchema := some (copyProp (copyProp h props "owner").1
                  (copyProp h props "owner").2 "repo").1.length }) := by
            unfold MakeOwnerRepoOptionalOne
            simp only [hq, hderef]
            rw [if_pos hreq]
            simp only [hprops]
          obtain ⟨ext1, hext1⟩ := copyProp_heap h props "owner"
          obtain ⟨ext2, hext2⟩ := copyProp_heap (copyProp h props "owner").1
            (copyProp h props "owner").2 "repo"
          rw [hOne]
          constructor
          · refine ⟨ext1 ++ ext2 ++
                [{ schema with
                    required := dropOwnerRepo schema.required,
                    properties := some (copyProp (copyProp h props "owner").1
                      (copyProp h props "owner").2 "repo").2 }], ?_⟩
            rw [hext2, hext1]
            simp
          · unfold perToolFact
            simp only [hq, Option.some_bind, hderef]
            rw [if_pos hreq]
            refine ⟨by trivial, by trivial, _, _, by trivial,
              List.getElem?_concat_length _ _, by trivial, by trivial,
              by trivial, by trivial, ?_⟩
            unfold propsFact
            simp only [hprops]
            refine ⟨_, rfl, ?_, ?_, ?_, ?_⟩
            · rw [copyProp_keys, copyProp_keys]
            · intro k q' hmem hko hkr
              exact copyProp_mem_ne _ _ _ _ _
                (copyProp_mem_ne _ _ _ _ _ hmem hko) hkr
            · intro q' prop hfind hq'
              obtain ⟨hfind1, hlook1⟩ :=
                copyProp_self h props "owner" q' prop hfind hq'
              refine ⟨h.length, ?_, ?_⟩
              · rw [copyProp_find_ne _ _ "repo" "owner" (by decide)]
                exact hfind1
              · apply getElem?_extend
                rw [hext2]
                exact getElem?_extend _ _ _ _ hlook1
            · intro q' prop hfind hq'
              have hfind1 : (copyProp h props "owner").2.find?
                  (fun pr => decide (pr.1 = "repo")) = some ("repo", some q') := by
                rw [copyProp_find_ne _ _ "owner" "repo" (by decide)]
                exact hfind
              have hq1 : (copyProp h props "owner").1[q']? = some prop := by
                rw [hext1]
                exact getElem?_extend _ _ _ _ hq'
              obtain ⟨hfind2, hlook2⟩ :=
                copyProp_self _ _ "repo" q' prop hfind1 hq1
              exact ⟨_, hfind2, getElem?_extend _ _ _ _ hlook2⟩
      · have hOne : MakeOwnerRepoOptionalOne h t = (h, t) := by
          unfold MakeOwnerRepoOptionalOne
          simp only [hq, hderef]
          rw [if_neg hreq]
        rw [hOne]
        refine ⟨⟨[], by simp⟩, ?_⟩
        unfold perToolFact
        simp only [hq, Option.some_bind, hderef]
        rw [if_neg hreq]
        trivial

theorem propsFact_mono (h h₂ h₃ : Heap)
    (ps ps' : Option (List (String × Option Nat)))
    (hf : propsFact h h₂ ps ps') (ext : Heap) (hext : h₃ = h₂ ++ ext) :
    propsFact h h₃ ps ps' := by
  cases ps with
  | none => exact hf
  | some l =>
    obtain ⟨l', h1, h2, h3, h4, h5⟩ := hf
    refine ⟨l', h1, h2, h3, ?_, ?_⟩
    · intro q prop hfind hq
      obtain ⟨q', hfq, hlq⟩ := h4 q prop hfind hq
      exact ⟨q', hfq, by rw [hext]; exact getElem?_extend _ _ _ _ hlq⟩
    · intro q prop hfind hq
      obtain ⟨q', hfq, hlq⟩ := h5 q prop hfind hq
      exact ⟨q', hfq, by rw [hext]; exact getElem?_extend _ _ _ _ hlq⟩

theorem perToolFact_mono (h h₂ h₃ : Heap) (t t' : ServerTool)
    (hf : perToolFact h h₂ t t') (ext : Heap) (hext : h₃ = h₂ ++ ext) :
    perToolFact h h₃ t t' := by
  unfold perToolFact at hf ⊢
  cases hd : t.inputSchema.bind fun q => h[q]? with
  | none => simp only [hd] at hf ⊢; exact hf
  | some schema =>
    simp only [hd] at hf ⊢
    by_cases hreq : "owner" ∈ schema.required ∨ "repo" ∈ schema.required
    · rw [if_pos hreq] at hf ⊢
      obtain ⟨h1, h2, p', s', h3, h4, h5, h6, h7, h8, h9⟩ := hf
      exact ⟨h1, h2, p', s', h3,
        by rw [hext]; exact getElem?_extend _ _ _ _ h4, h5, h6, h7, h8,
        propsFact_mono _ _ _ _ _ h9 ext hext⟩
    · rw [if_neg hreq] at hf ⊢; exact hf

theorem propsFact_src (h ext h₂ : Heap)
    (ps ps' : Option (List (String × Option Nat)))
    (hf : propsFact (h ++ ext) h₂ ps ps') : propsFact h h₂ ps ps' := by
  cases ps with
  | none => exact hf
  | some l =>
    obtain ⟨l', h1, h2, h3, h4, h5⟩ := hf
    refine ⟨l', h1, h2, h3, ?_, ?_⟩
    · intro q prop hfind hq
      exact h4 q prop hfind (getElem?_extend _ _ _ _ hq)
    · intro q prop hfind hq
      exact h5 q prop hfind (getElem?_extend _ _ _ _ hq)

theorem perToolFact_src (h ext h₂ : Heap) (t t' : ServerTool)
    (hv : ∀ p, t.inputSchema = some p → p < h.length)
    (hf : perToolFact (h ++ ext) h₂ t t') : perToolFact h h₂ t t' := by
  unfold perToolFact at hf ⊢
  cases hq : t.inputSchema with
  | none => simp only [hq, Option.none_bind] at hf ⊢; exact hf
  | some p =>
    have hp := hv p hq
    have heq : (h ++ ext)[p]? = h[p]? := List.getElem?_append_left hp
    simp only [hq, Option.some_bind, heq] at hf ⊢
    cases hd : h[p]? with
    | none => simp only [hd] at hf ⊢; exact hf
    | some schema =>
      simp only [hd] at hf ⊢
      by_cases hreq : "owner" ∈ schema.required ∨ "repo" ∈ schema.required
      · rw [if_pos hreq] at hf ⊢
        obtain ⟨h1, h2, p', s', h3, h4, h5, h6, h7, h8, h9⟩ := hf
        exact ⟨h1, h2, p', s', h3, h4, h5, h6, h7, h8,
          propsFact_src _ _ _ _ _ h9⟩
      · rw [if_neg hreq] at hf ⊢; exact hf

/-- C7: `MakeOwnerRepoOptional` over well-formed tools (schema pointers
into the heap) appends only fresh cells — every original schema object is
unchanged in the output heap — keeps one output tool per input tool, and
each tool satisfies `perToolFact`: required rewritten by `dropOwnerRepo`
(all other entries in order), owner/repo descriptions gaining the advisory
suffix on fresh copies, every other schema field and property untouched,
and tools requiring neither field returned as-is. -/
theorem MakeOwnerRepoOptional_spec :
    ∀ (tools : List ServerTool) (h : Heap),
      (∀ t ∈ tools, ∀ p, t.inputSchema = some p → p < h.length) →
      (∃ ext, (MakeOwnerRepoOptional tools h).2 = h ++ ext) ∧
      (MakeOwnerRepoOptional tools h).1.length = tools.length ∧
      ∀ i (hi : i < tools.length)
        (hi' : i < (MakeOwnerRepoOptional tools h).1.length),
        perToolFact h (MakeOwnerRepoOptional tools h).2
          (tools.get ⟨i, hi⟩)
          ((MakeOwnerRepoOptional tools h).1.get ⟨i, hi'⟩) := by
  intro tools
  induction tools with
  | nil =>
    intro h _
    refine ⟨⟨[], by simp [MakeOwnerRepoOptional]⟩,
      by simp [MakeOwnerRepoOptional], ?_⟩
    intro i hi
    exact absurd hi (Nat.not_lt_zero i)
  | cons t ts ih =>
    intro h hv
    obtain ⟨⟨ext1, hext1⟩, hfact1⟩ := MakeOwnerRepoOptionalOne_spec h t
    have hv' : ∀ t' ∈ ts, ∀ p, t'.inputSchema = some p →
        p < (MakeOwnerRepoOptionalOne h t).1.length := by
      intro t' ht' p hp
      have h1 := hv t' (List.mem_cons_of_mem _ ht') p hp
      rw [hext1, List.length_append]
      omega
    obtain ⟨⟨ext2, hext2⟩, hlen, hfacts⟩ :=
      ih (MakeOwnerRepoOptionalOne h t).1 hv'
    have hM : MakeOwnerRepoOptional (t :: ts) h =
        ((MakeOwnerRepoOptionalOne h t).2 ::
          (MakeOwnerRepoOptional ts (MakeOwnerRepoOptionalOne h t).1).1,
         (MakeOwnerRepoOptional ts (MakeOwnerRepoOptionalOne h t).1).2) := rfl
    rw [hM]
    refine ⟨⟨ext1 ++ ext2, by rw [hext2, hext1, List.append_assoc]⟩,
      by simpa using hlen, ?_⟩
    intro i hi hi'
    cases i with
    | zero =>
      exact perToolFact_mono _ _ _ _ _ hfact1 ext2 hext2
    | succ j =>
      have hj : j < ts.length := Nat.lt_of_succ_lt_succ hi
      have hj' : j <
          (MakeOwnerRepoOptional ts (MakeOwnerRepoOptionalOne h t).1).1.length := by
        rw [hlen]; exact hj
      have hfj := hfacts j hj hj'
      refine perToolFact_src h ext1 _ _ _ ?_ ?_
      · intro p hp
        exact hv _ (List.mem_cons_of_mem _ (ts.get_mem j hj)) p hp
      · rw [← hext1]
        exact hfj

/-- A concrete heap for exercising the transform: one object schema
requiring owner, repo and state, with owner/repo properties pointing at
string schemas. -/
def demoHeap : Heap :=
  [⟨"object", "List issues", ["owner", "repo", "state"],
    some [("owner", some 1), ("repo", some 2), ("state", none)], []⟩,
   ⟨"string", "Repository owner", [], none, []⟩,
   ⟨"string", "Repository name", [], none, []⟩]

/-- A concrete tool list: one tool whose schema is `demoHeap` cell 0. -/
def demoTools : List ServerTool := [⟨"list_issues", some 0, []⟩]

/-- Witness for C7: the transform applied to `demoTools`/`demoHeap`. -/
theorem MakeOwnerRepoOptional_spec_witness :
    (∀ t ∈ demoTools, ∀ p, t.inputSchema = some p → p < demoHeap.length) ∧
    ((∃ ext, (MakeOwnerRepoOptional demoTools demoHeap).2 = demoHeap ++ ext) ∧
      (MakeOwnerRepoOptional demoTools demoHeap).1.length = demoTools.length ∧
      ∀ i (hi : i < demoTools.length)
        (hi' : i < (MakeOwnerRepoOptional demoTools demoHeap).1.length),
        perToolFact demoHeap (MakeOwnerRepoOptional demoTools demoHeap).2
          (demoTools.get ⟨i, hi⟩)
          ((MakeOwnerRepoOptional demoTools demoHeap).1.get ⟨i, hi'⟩)) :=
  have hwf : ∀ t ∈ demoTools, ∀ p,
      t.inputSchema = some p → p < demoHeap.length := by
    intro t ht p hp
    rw [show demoTools = [⟨"list_issues", some 0, []⟩] from rfl,
      List.mem_singleton] at ht
    subst ht
    rw [← Option.some.inj hp]
    decide
  ⟨hwf, MakeOwnerRepoOptional_spec demoTools demoHeap hwf⟩

end GH
